import Mathlib

/-!
# Verification of the shortest-path engine in `main.py`

Shallow embedding of the repository's single source file. Vertices are
string labels; Python `float("inf")` accumulators are modelled by
`Option Nat` (`none` meaning infinity; all finite values produced by the
program are non-negative integers). Python exceptions (`KeyError`,
`OverflowError` from `int(float("inf"))`, `ValueError` from
`list.remove`, `IndexError`) are modelled by `Except Err`; the unbounded
`while True` loop in `get_best_path` is given explicit fuel, with fuel
exhaustion marking divergence. Python `dict`s are modelled by
association lists (Python dicts have unique keys and preserve insertion
order; updating an existing key keeps its position).
-/

/-- Vertex labels are strings. -/
abbrev V := String

/-- Extended naturals: `none` models Python `float("inf")`. -/
abbrev EN := Option Nat

/-- Python `<` on numbers where `none` is `float("inf")`. -/
def enLt : EN → EN → Bool
  | some a, some b => a < b
  | some _, none => true
  | none, _ => false

/-- Python `<=` on numbers where `none` is `float("inf")`. -/
def enLe : EN → EN → Bool
  | _, none => true
  | none, some _ => false
  | some a, some b => a ≤ b

/-- Python `+` where adding `float("inf")` yields `float("inf")`. -/
def enAdd : EN → EN → EN
  | some a, some b => some (a + b)
  | _, _ => none

/-- Exceptions raised by the Python code. -/
inductive Err
  | keyError (k : V)
  | overflowError
  | valueError
  | indexError
  | fuel
deriving DecidableEq

/-- Association-list lookup, modelling Python `d[k]` reads on a dict. -/
def alookup {α : Type} : List (V × α) → V → Option α
  | [], _ => none
  | (k, a) :: t, v => if k = v then some a else alookup t v

/-- Association-list update of an existing key, modelling Python
`d[k] = v` on a dict that already has the key (the key keeps its
position; a missing key is left untouched, callers guard with `getE`). -/
def aset {α : Type} : List (V × α) → V → α → List (V × α)
  | [], _, _ => []
  | (k, a) :: t, v, s => if k = v then (k, s) :: aset t v s else (k, a) :: aset t v s

/-- Dict read that raises `KeyError` on a missing key, as Python does. -/
def getE {α : Type} (l : List (V × α)) (k : V) : Except Err α :=
  match alookup l k with
  | some a => .ok a
  | none => .error (.keyError k)

/-- Python `list.remove`: delete the first occurrence, `ValueError` if absent. -/
def list_remove : List V → V → Except Err (List V)
  | [], _ => .error .valueError
  | x :: t, v =>
    if x = v then .ok t
    else
      match list_remove t v with
      | .ok t2 => .ok (x :: t2)
      | .error e => .error e

/-- The two weights carried by every edge (`{"distance": _, "cost": _}`). -/
structure EdgeW where
  distance : Nat
  cost : Nat
deriving DecidableEq

/-- The graph: a dict from vertex to its neighbour dict (`create_graph` shape). -/
abbrev Graph := List (V × List (V × EdgeW))

/-- Key list of a dict, in insertion order. -/
def keys {α : Type} (l : List (V × α)) : List V := l.map Prod.fst

/-- The per-vertex record built by `calculate_shortest_paths`:
`{"cost": _, "distance": _, "best_neighbour": _}` (fields in the order the
source assigns them). -/
structure NodeState where
  cost : EN
  distance : EN
  best_neighbour : Option V
deriving DecidableEq

/-- The mutable `nodes` dict of `calculate_shortest_paths`. -/
abbrev Nodes := List (V × NodeState)

/-- The `metric` argument; the claims only use the two recognised values
`"distance"` and `"cost"` (the spec leaves other strings undefined). -/
inductive Metric
  | distance
  | cost
deriving DecidableEq

/-- `nodes[v][metric]`: the accumulator selected by the metric. -/
def primA : Metric → NodeState → EN
  | .distance, st => st.distance
  | .cost, st => st.cost

/-- `graph[u][v][metric]`: the edge weight selected by the metric. -/
def primW : Metric → EdgeW → Nat
  | .distance, w => w.distance
  | .cost, w => w.cost

/-- The metric not being optimised. -/
def otherM : Metric → Metric
  | .distance => .cost
  | .cost => .distance

/-- `int(x)` on a float accumulator: `OverflowError` on `float("inf")`. -/
def toIntE : EN → Except Err Nat
  | some n => .ok n
  | none => .error .overflowError

/-- The `for neighbour_node in graph[current_node]` loop body of
`recalculate_neighbour_position` (lines 115-123): compute
`alternate_distance = graph[current][nb]["distance"] + nodes[current]["distance"]`
and `alternate_cost` likewise (here inlined at their use sites — they are
pure expressions), and on a strict improvement of the chosen metric store
`int(alternate_distance)`, `int(alternate_cost)` and the predecessor. -/
def recalc_step (m : Metric) (current : V) : List (V × EdgeW) → Nodes → Except Err Nodes
  | [], nodes => .ok nodes
  | (neighbour_node, w) :: rest, nodes => do
    let cur ← getE nodes current
    let nbst ← getE nodes neighbour_node
    if (match m with
        | .distance => enLt (enAdd (some w.distance) cur.distance) nbst.distance
        | .cost => enLt (enAdd (some w.cost) cur.cost) nbst.cost) then do
      let d ← toIntE (enAdd (some w.distance) cur.distance)
      let c ← toIntE (enAdd (some w.cost) cur.cost)
      recalc_step m current rest (aset nodes neighbour_node ⟨some c, some d, some current⟩)
    else
      recalc_step m current rest nodes

/-- `recalculate_neighbour_position` (lines 105-125). -/
def recalculate_neighbour_position (graph : Graph) (current : V) (nodes : Nodes)
    (m : Metric) : Except Err Nodes := do
  let row ← getE graph current
  recalc_step m current row nodes

/-- The linear minimum scan of the main loop (lines 90-96): start from
`unvisited[0]` and keep the first strict improvement. -/
def scan_min (m : Metric) (nodes : Nodes) : List V → V → EN → Except Err (V × EN)
  | [], best, minv => .ok (best, minv)
  | u :: rest, best, minv => do
    let st ← getE nodes u
    if enLt (primA m st) minv then scan_min m nodes rest u (primA m st)
    else scan_min m nodes rest best minv

/-- The `while unvisited_nodes` loop (lines 89-101), with fuel: each
iteration selects the unvisited vertex of minimum metric value, removes
it, and relaxes its outgoing edges.  The caller supplies fuel equal to
the number of unvisited vertices, which always suffices because each
iteration removes one vertex. -/
def dijkstra_loop (m : Metric) (graph : Graph) : Nat → List V → Nodes → Except Err Nodes
  | _, [], nodes => .ok nodes
  | 0, _ :: _, _ => .error .fuel
  | fuel + 1, u :: rest, nodes => do
    let st0 ← getE nodes u
    let sc ← scan_min m nodes (u :: rest) u (primA m st0)
    let unvE ← list_remove (u :: rest) sc.1
    let nodesN ← recalculate_neighbour_position graph sc.1 nodes m
    dijkstra_loop m graph fuel unvE nodesN

/-- The initialisation loop of `calculate_shortest_paths` (lines 79-84):
every graph key gets infinite accumulators and no predecessor. -/
def initNodes (graph : Graph) : Nodes :=
  graph.map (fun p => (p.1, ⟨none, none, none⟩))

/-- `calculate_shortest_paths` (lines 62-102).  Setting the start vertex
accumulators to 0 raises `KeyError` when the start vertex is not a graph
key, exactly as `nodes[starting_vertex]["cost"] = 0` does. -/
def calculate_shortest_paths (m : Metric) (graph : Graph) (starting_vertex : V) :
    Except Err Nodes := do
  let st ← getE (initNodes graph) starting_vertex
  dijkstra_loop m graph (keys graph).length (keys graph)
    (aset (initNodes graph) starting_vertex ⟨some 0, some 0, st.best_neighbour⟩)

/-- The `while True` predecessor walk of `get_best_path` (lines 136-142),
with fuel marking divergence: starting from the destination, repeatedly
append `nodes[d]["best_neighbour"]` until it is `None`. -/
def path_loop (nodes : Nodes) : Nat → V → List V → Except Err (List V)
  | 0, _, _ => .error .fuel
  | fuel + 1, destination, path => do
    let st ← getE nodes destination
    match st.best_neighbour with
    | none => .ok path
    | some d => path_loop nodes fuel d (path ++ [d])

/-- Joining with `"-"`: the source appends `node + "-"` for each node and
strips the final character, which on a nonempty list is exactly
interspersing `"-"` (and both give `""` on an empty list). -/
def join_dash : List String → String
  | [] => ""
  | [a] => a
  | a :: rest => a ++ "-" ++ join_dash rest

/-- `get_best_path` (lines 128-147): walk the predecessor links from the
destination, then render the reversed vertex list joined by `"-"`.  The
fuel `nodes.length + 1` is enough whenever the predecessor links are
acyclic, which is proved for every result of `calculate_shortest_paths`;
on a cyclic link structure the source loops forever and the model
reports fuel exhaustion. -/
def get_best_path (nodes : Nodes) (destination : V) : Except Err String := do
  let path ← path_loop nodes (nodes.length + 1) destination [destination]
  pure (join_dash path.reverse)

/-- One table row after the out-of-scope I/O layers: `point` is the value
of the `"POINT"` column and `cells` holds, for each remaining column in
order, the list of numbers extracted from the cell text (the regex and
numpy conversion of line 50 are part of the external numeric-extraction
collaborator, per spec section 1). -/
structure Row where
  point : V
  cells : List (V × List Nat)
deriving DecidableEq

/-- The per-row cell loop of `create_graph` (lines 47-54): a cell whose
numbers contain 0 is deleted; otherwise the cell becomes an edge with
`distance = numbers[0]` and `cost = numbers[0] * numbers[1]`
(`IndexError` when fewer than two numbers were extracted). -/
def build_row_cells : List (V × List Nat) → Except Err (List (V × EdgeW))
  | [] => .ok []
  | (ending_point, numbers) :: rest =>
    if 0 ∈ numbers then build_row_cells rest
    else
      match numbers with
      | n0 :: n1 :: _ => do
        let out ← build_row_cells rest
        .ok ((ending_point, ⟨n0, n0 * n1⟩) :: out)
      | _ => .error .indexError

/-- `create_graph` (lines 26-59) applied to the parsed CSV rows: each row
becomes the adjacency dict of its `POINT` vertex. -/
def create_graph : List Row → Except Err Graph
  | [] => .ok []
  | row :: rest => do
    let cells ← build_row_cells row.cells
    let g ← create_graph rest
    .ok ((row.point, cells) :: g)

/-- `graph[u][v]` as an optional read: the weight record of the edge from
`u` to `v`, when present. -/
def edgeW (g : Graph) (u v : V) : Option EdgeW :=
  match alookup g u with
  | some row => alookup row v
  | none => none

/-! ## Graph well-formedness

A Python dict cannot repeat keys, so the association lists modelling the
graph have nodup key lists.  `closed` says every edge target is itself a
graph key: the engine looks up `nodes[neighbour_node]` for every
neighbour of every finalized vertex, so a dangling edge target would
crash every run with a `KeyError`.  The positivity fields are the
claims' hypothesis that all weights are strictly positive. -/
structure WFG (g : Graph) : Prop where
  keys_nodup : (keys g).Nodup
  rows_nodup : ∀ e ∈ g, (keys e.2).Nodup
  closed : ∀ e ∈ g, ∀ c ∈ e.2, c.1 ∈ keys g
  pos_distance : ∀ e ∈ g, ∀ c ∈ e.2, 0 < c.2.distance
  pos_cost : ∀ e ∈ g, ∀ c ∈ e.2, 0 < c.2.cost

/-! ## Walks

A walk is the vertex list of a path from the start vertex: both
endpoints included, consecutive vertices joined by a graph edge.  A
simple path in the sense of the spec is a walk whose list has no
repeated vertex. -/
inductive IsWalk (g : Graph) (s : V) : V → List V → Prop
  | single : IsWalk g s s [s]
  | snoc {p : List V} {y x : V} (hw : IsWalk g s y p) (he : (edgeW g y x).isSome) :
      IsWalk g s x (p ++ [x])

/-- Sum of the selected edge weight over consecutive vertices of a list;
an absent edge contributes infinity, so on a genuine walk the sum is
finite. -/
def walkW (f : EdgeW → Nat) (g : Graph) : List V → EN
  | a :: b :: t => enAdd ((edgeW g a b).map f) (walkW f g (b :: t))
  | _ => some 0

/-! ## Predecessor chains

`DChain nodes x q` says that `q` is the vertex sequence produced by
following `best_neighbour` links from `x` (destination first) until a
vertex with no predecessor. -/
inductive DChain (nodes : Nodes) : V → List V → Prop
  | last {x : V} {st : NodeState} (hl : alookup nodes x = some st)
      (hn : st.best_neighbour = none) : DChain nodes x [x]
  | cons {x y : V} {st : NodeState} {q : List V} (hl : alookup nodes x = some st)
      (hn : st.best_neighbour = some y) (hc : DChain nodes y q) : DChain nodes x (x :: q)

/-! ## The loop invariant of `calculate_shortest_paths`

`unvisited` is the current `unvisited_nodes` list; a vertex is
*finalized* when it is a graph key no longer in `unvisited`. -/

/-- All outgoing edges of finalized vertices are relaxed, except that the
edges of `u` listed in `exc` may still be pending (the shape of the state
in the middle of `recalculate_neighbour_position`; the fully relaxed
statement takes `exc = []`, for which `u` is irrelevant). -/
def RelaxedOk (m : Metric) (g : Graph) (unvisited : List V) (nodes : Nodes)
    (u : V) (exc : List (V × EdgeW)) : Prop :=
  ∀ q qst, alookup nodes q = some qst → q ∉ unvisited →
    ∀ v w, edgeW g q v = some w → (q = u → (v, w) ∉ exc) →
      ∀ vst, alookup nodes v = some vst →
        enLe (primA m vst) (enAdd (some (primW m w)) (primA m qst)) = true

/-- The states reachable in the main loop of `calculate_shortest_paths`
(for a well-formed graph with start vertex `s`): bookkeeping of the key
lists, the start vertex pinned at zero, the finiteness pairing of the two
accumulators, predecessor links recording an incoming relaxed edge from a
finalized vertex, the lower-bound property of finalized vertices, and the
relaxedness of all edges out of finalized vertices. -/
structure DijkInv (m : Metric) (g : Graph) (s : V) (unvisited : List V) (nodes : Nodes) :
    Prop where
  keys_eq : keys nodes = keys g
  unv_sub : ∀ v ∈ unvisited, v ∈ keys g
  unv_nodup : unvisited.Nodup
  s_mem : s ∈ keys g
  s_state : alookup nodes s = some ⟨some 0, some 0, none⟩
  pairing : ∀ v st, alookup nodes v = some st → (st.distance = none ↔ st.cost = none)
  unreached : ∀ v st, alookup nodes v = some st → v ≠ s → primA m st = none →
    st = ⟨none, none, none⟩
  pred : ∀ v st, alookup nodes v = some st → v ≠ s → ∀ n, primA m st = some n →
    ∃ u w ust, st.best_neighbour = some u ∧ u ∉ unvisited ∧ edgeW g u v = some w ∧
      alookup nodes u = some ust ∧
      st.distance = enAdd (some w.distance) ust.distance ∧
      st.cost = enAdd (some w.cost) ust.cost
  lb : ∀ v st, alookup nodes v = some st → v ∉ unvisited →
    ∀ p, IsWalk g s v p → enLe (primA m st) (walkW (primW m) g p) = true
  relaxed : RelaxedOk m g unvisited nodes s []

/-- The predecessor-link equations alone (the part of the invariant that
does not mention the unvisited list), enough to rebuild the predecessor
walk. -/
def PredCore (m : Metric) (g : Graph) (s : V) (nodes : Nodes) : Prop :=
  ∀ v st, alookup nodes v = some st → v ≠ s → ∀ n, primA m st = some n →
    ∃ u w ust, st.best_neighbour = some u ∧ edgeW g u v = some w ∧
      alookup nodes u = some ust ∧
      st.distance = enAdd (some w.distance) ust.distance ∧
      st.cost = enAdd (some w.cost) ust.cost

/-- The invariant in the middle of `recalculate_neighbour_position` for
the freshly finalized vertex `u`: identical to `DijkInv` except that the
edges of `u` still listed in `exc` may be unrelaxed. -/
structure DijkInvMid (m : Metric) (g : Graph) (s u : V) (unvisited : List V)
    (exc : List (V × EdgeW)) (nodes : Nodes) : Prop where
  keys_eq : keys nodes = keys g
  unv_sub : ∀ v ∈ unvisited, v ∈ keys g
  unv_nodup : unvisited.Nodup
  s_mem : s ∈ keys g
  s_state : alookup nodes s = some ⟨some 0, some 0, none⟩
  pairing : ∀ v st, alookup nodes v = some st → (st.distance = none ↔ st.cost = none)
  unreached : ∀ v st, alookup nodes v = some st → v ≠ s → primA m st = none →
    st = ⟨none, none, none⟩
  pred : ∀ v st, alookup nodes v = some st → v ≠ s → ∀ n, primA m st = some n →
    ∃ u2 w ust, st.best_neighbour = some u2 ∧ u2 ∉ unvisited ∧ edgeW g u2 v = some w ∧
      alookup nodes u2 = some ust ∧
      st.distance = enAdd (some w.distance) ust.distance ∧
      st.cost = enAdd (some w.cost) ust.cost
  lb : ∀ v st, alookup nodes v = some st → v ∉ unvisited →
    ∀ p, IsWalk g s v p → enLe (primA m st) (walkW (primW m) g p) = true
  relaxed : RelaxedOk m g unvisited nodes u exc

/-- The part of the loop state needed for the monotonicity claim alone:
the unvisited list has no duplicates (true of every real run, whose
unvisited list starts as the dict's key list), and every finalized
vertex's metric value is at most every unvisited vertex's metric value.
Nothing is assumed about the edge weights beyond their being natural
numbers, i.e. merely non-negative — in particular zero-weight edges are
allowed. -/
structure MonoInv (m : Metric) (unvisited : List V) (nodes : Nodes) : Prop where
  unv_nodup : unvisited.Nodup
  mono : ∀ v vst, alookup nodes v = some vst → v ∉ unvisited →
    ∀ y yst, y ∈ unvisited → alookup nodes y = some yst →
      enLe (primA m vst) (primA m yst) = true

/-! ## Order and arithmetic facts about `EN` -/

theorem enLt_none_left (b : EN) : enLt none b = false := by cases b <;> rfl

theorem enLe_none_right (a : EN) : enLe a none = true := by cases a <;> rfl

theorem enLe_some_iff (a b : Nat) : enLe (some a) (some b) = true ↔ a ≤ b := by
  simp [enLe]

theorem enLt_some_iff (a b : Nat) : enLt (some a) (some b) = true ↔ a < b := by
  simp [enLt]

theorem enLe_refl (a : EN) : enLe a a = true := by
  cases a <;> simp [enLe]

theorem enLe_zero_left (a : EN) : enLe (some 0) a = true := by
  cases a <;> simp [enLe]

theorem enLt_finite {a b : EN} (h : enLt a b = true) : ∃ n, a = some n := by
  cases a with
  | none => rw [enLt_none_left] at h; exact absurd h (by simp)
  | some n => exact ⟨n, rfl⟩

theorem not_enLt_iff {a b : EN} : enLt a b = false ↔ enLe b a = true := by
  cases a <;> cases b <;> simp [enLt, enLe, Nat.not_lt] <;> omega

theorem enLe_of_enLt {a b : EN} (h : enLt a b = true) : enLe a b = true := by
  cases a <;> cases b <;> simp_all [enLt, enLe] <;> omega

theorem enLe_trans {a b c : EN} (h1 : enLe a b = true) (h2 : enLe b c = true) :
    enLe a c = true := by
  cases a <;> cases b <;> cases c <;> simp_all [enLe] <;> omega

theorem enLt_of_enLt_of_enLe {a b c : EN} (h1 : enLt a b = true) (h2 : enLe b c = true) :
    enLt a c = true := by
  cases a <;> cases b <;> cases c <;> simp_all [enLt, enLe] <;> omega

theorem enLt_enLe_absurd {a b : EN} (h1 : enLt a b = true) (h2 : enLe b a = true) : False := by
  cases a <;> cases b <;> simp_all [enLt, enLe] <;> omega

theorem enAdd_comm (a b : EN) : enAdd a b = enAdd b a := by
  cases a <;> cases b <;> simp [enAdd] <;> omega

theorem enAdd_assoc (a b c : EN) : enAdd (enAdd a b) c = enAdd a (enAdd b c) := by
  cases a <;> cases b <;> cases c <;> simp [enAdd] <;> omega

theorem enAdd_some_some (a b : Nat) : enAdd (some a) (some b) = some (a + b) := rfl

theorem enAdd_none_right (a : EN) : enAdd a none = none := by cases a <;> rfl

theorem enLe_enAdd_right (a b : EN) : enLe a (enAdd a b) = true := by
  cases a <;> cases b <;> simp [enAdd, enLe]

theorem enLe_enAdd_left (a b : EN) : enLe a (enAdd b a) = true := by
  rw [enAdd_comm]; exact enLe_enAdd_right a b

theorem enAdd_le_enAdd_left {a b : EN} (c : EN) (h : enLe a b = true) :
    enLe (enAdd c a) (enAdd c b) = true := by
  cases a <;> cases b <;> cases c <;> simp_all [enAdd, enLe] <;> omega

theorem enAdd_finite {a b : EN} {n : Nat} (h : enAdd a b = some n) :
    ∃ x y, a = some x ∧ b = some y ∧ n = x + y := by
  cases a with
  | none => simp [enAdd] at h
  | some x =>
    cases b with
    | none => simp [enAdd] at h
    | some y =>
      refine ⟨x, y, rfl, rfl, ?_⟩
      simp [enAdd] at h
      omega

theorem enLe_none_left {a : EN} (h : enLe none a = true) : a = none := by
  cases a with
  | none => rfl
  | some n => simp [enLe] at h

/-- Reduction of the `Except` monad bind on a success value. -/
theorem except_bind_ok {ε α β : Type} (a : α) (f : α → Except ε β) :
    (Except.ok a >>= f : Except ε β) = f a := rfl

/-- Reduction of the `Except` monad bind on an error value. -/
theorem except_bind_error {ε α β : Type} (e : ε) (f : α → Except ε β) :
    (Except.error e >>= f : Except ε β) = Except.error e := rfl

/-! ## Association-list facts -/

theorem alookup_mem {α : Type} {l : List (V × α)} {v : V} {a : α}
    (h : alookup l v = some a) : (v, a) ∈ l := by
  induction l with
  | nil => simp [alookup] at h
  | cons p t ih =>
    obtain ⟨k, b⟩ := p
    by_cases hk : k = v
    · subst hk
      simp [alookup] at h
      simp [h]
    · simp [alookup, hk] at h
      exact List.mem_cons_of_mem _ (ih h)

theorem mem_keys_of_alookup {α : Type} {l : List (V × α)} {v : V} {a : α}
    (h : alookup l v = some a) : v ∈ keys l := by
  have := alookup_mem h
  simp only [keys, List.mem_map]
  exact ⟨(v, a), this, rfl⟩

theorem alookup_eq_none_iff {α : Type} {l : List (V × α)} {v : V} :
    alookup l v = none ↔ v ∉ keys l := by
  induction l with
  | nil => simp [alookup, keys]
  | cons p t ih =>
    obtain ⟨k, b⟩ := p
    by_cases hk : k = v
    · subst hk
      simp [alookup, keys]
    · simp [alookup, hk, keys] at ih ⊢
      exact ⟨fun h => ⟨fun he => hk he.symm, (ih.mp h)⟩, fun h => ih.mpr h.2⟩

theorem alookup_isSome_of_mem_keys {α : Type} {l : List (V × α)} {v : V}
    (h : v ∈ keys l) : ∃ a, alookup l v = some a := by
  cases ha : alookup l v with
  | none => exact absurd (alookup_eq_none_iff.mp ha) (by simp [h])
  | some a => exact ⟨a, rfl⟩

theorem alookup_of_mem_nodup {α : Type} {l : List (V × α)} {v : V} {a : α}
    (hn : (keys l).Nodup) (h : (v, a) ∈ l) : alookup l v = some a := by
  induction l with
  | nil => simp at h
  | cons p t ih =>
    obtain ⟨k, b⟩ := p
    simp only [keys, List.map_cons, List.nodup_cons] at hn
    rcases List.mem_cons.mp h with he | ht
    · injection he with h1 h2
      subst h1
      subst h2
      simp [alookup]
    · have hvk : v ∈ List.map Prod.fst t := List.mem_map.mpr ⟨(v, a), ht, rfl⟩
      have hk : ¬ k = v := fun he => hn.1 (by rw [he]; exact hvk)
      simp [alookup, hk]
      exact ih hn.2 ht

theorem keys_aset {α : Type} (l : List (V × α)) (v : V) (s : α) :
    keys (aset l v s) = keys l := by
  induction l with
  | nil => rfl
  | cons p t ih =>
    obtain ⟨k, b⟩ := p
    by_cases hk : k = v <;> simp [aset, hk, keys] at ih ⊢ <;> exact ih

theorem alookup_aset_self {α : Type} {l : List (V × α)} {v : V} (s : α)
    (h : v ∈ keys l) : alookup (aset l v s) v = some s := by
  induction l with
  | nil => simp [keys] at h
  | cons p t ih =>
    obtain ⟨k, b⟩ := p
    by_cases hk : k = v
    · subst hk
      simp [aset, alookup]
    · simp [keys, hk, Ne.symm hk] at h
      simp [aset, hk, alookup]
      exact ih (by simpa [keys] using h)

theorem alookup_aset_ne {α : Type} (l : List (V × α)) {x v : V} (s : α)
    (h : x ≠ v) : alookup (aset l v s) x = alookup l x := by
  induction l with
  | nil => rfl
  | cons p t ih =>
    obtain ⟨k, b⟩ := p
    by_cases hk : k = v
    · have hkx : ¬ k = x := fun he => h (he.symm.trans hk)
      simp [aset, alookup, hk, hkx, ih, Ne.symm h]
    · by_cases hx : k = x <;> simp [aset, alookup, hk, hx, h, ih]

theorem keys_initNodes (g : Graph) : keys (initNodes g) = keys g := by
  simp [initNodes, keys]

theorem alookup_initNodes (g : Graph) (v : V) :
    alookup (initNodes g) v = (alookup g v).map (fun _ => ⟨none, none, none⟩) := by
  induction g with
  | nil => rfl
  | cons p t ih =>
    obtain ⟨k, b⟩ := p
    by_cases hk : k = v <;> simp [initNodes, alookup, hk] at ih ⊢ <;> exact ih

/-! ## `getE` and `list_remove` facts -/

theorem getE_ok_iff {α : Type} {l : List (V × α)} {k : V} {a : α} :
    getE l k = .ok a ↔ alookup l k = some a := by
  unfold getE
  cases alookup l k <;> simp

theorem getE_error_iff {α : Type} {l : List (V × α)} {k : V} {e : Err} :
    getE l k = .error e ↔ alookup l k = none ∧ e = .keyError k := by
  unfold getE
  cases alookup l k <;> simp [eq_comm]

theorem list_remove_ok {l : List V} {v : V} (h : v ∈ l) :
    ∃ r, list_remove l v = .ok r := by
  induction l with
  | nil => simp at h
  | cons x t ih =>
    by_cases hx : x = v
    · exact ⟨t, by simp [list_remove, hx]⟩
    · rcases List.mem_cons.mp h with he | ht
      · exact absurd he.symm hx
      · obtain ⟨r, hr⟩ := ih ht
        exact ⟨x :: r, by simp [list_remove, hx, hr]⟩

theorem list_remove_length {l r : List V} {v : V}
    (h : list_remove l v = .ok r) : r.length + 1 = l.length := by
  induction l generalizing r with
  | nil => simp [list_remove] at h
  | cons x t ih =>
    by_cases hx : x = v
    · simp [list_remove, hx] at h
      simp [← h]
    · simp only [list_remove, hx, if_false] at h
      cases ht : list_remove t v with
      | error e => rw [ht] at h; simp at h
      | ok r2 =>
        rw [ht] at h
        simp at h
        subst h
        simp [← ih ht]

theorem list_remove_subset {l r : List V} {v : V}
    (h : list_remove l v = .ok r) : ∀ x ∈ r, x ∈ l := by
  induction l generalizing r with
  | nil => simp [list_remove] at h
  | cons x t ih =>
    by_cases hx : x = v
    · simp [list_remove, hx] at h
      subst h
      exact fun y hy => List.mem_cons_of_mem _ hy
    · simp only [list_remove, hx, if_false] at h
      cases ht : list_remove t v with
      | error e => rw [ht] at h; simp at h
      | ok r2 =>
        rw [ht] at h
        simp at h
        subst h
        intro y hy
        rcases List.mem_cons.mp hy with he | h2
        · simp [he]
        · exact List.mem_cons_of_mem _ (ih ht y h2)

theorem list_remove_mem_iff {l r : List V} {v : V} (hn : l.Nodup)
    (h : list_remove l v = .ok r) : ∀ x, (x ∈ r ↔ x ∈ l ∧ x ≠ v) := by
  induction l generalizing r with
  | nil => simp [list_remove] at h
  | cons x t ih =>
    simp only [List.nodup_cons] at hn
    by_cases hx : x = v
    · subst hx
      simp [list_remove] at h
      subst h
      intro y
      constructor
      · intro hy
        exact ⟨List.mem_cons_of_mem _ hy, fun he => hn.1 (he ▸ hy)⟩
      · rintro ⟨hy, hne⟩
        rcases List.mem_cons.mp hy with he | h2
        · exact absurd he hne
        · exact h2
    · simp only [list_remove, hx, if_false] at h
      cases ht : list_remove t v with
      | error e => rw [ht] at h; simp at h
      | ok r2 =>
        rw [ht] at h
        simp at h
        subst h
        intro y
        have := ih hn.2 ht y
        constructor
        · intro hy
          rcases List.mem_cons.mp hy with he | h2
          · exact ⟨by simp [he], by rw [he]; exact fun hc => hx hc⟩
          · have := this.mp h2
            exact ⟨List.mem_cons_of_mem _ this.1, this.2⟩
        · rintro ⟨hy, hne⟩
          rcases List.mem_cons.mp hy with he | h2
          · simp [he]
          · exact List.mem_cons_of_mem _ (this.mpr ⟨h2, hne⟩)

theorem list_remove_nodup {l r : List V} {v : V} (hn : l.Nodup)
    (h : list_remove l v = .ok r) : r.Nodup := by
  induction l generalizing r with
  | nil => simp [list_remove] at h
  | cons x t ih =>
    simp only [List.nodup_cons] at hn
    by_cases hx : x = v
    · simp [list_remove, hx] at h
      subst h
      exact hn.2
    · simp only [list_remove, hx, if_false] at h
      cases ht : list_remove t v with
      | error e => rw [ht] at h; simp at h
      | ok r2 =>
        rw [ht] at h
        simp at h
        subst h
        exact List.nodup_cons.mpr
          ⟨fun hc => hn.1 (list_remove_subset ht _ hc), ih hn.2 ht⟩

theorem edgeW_elim {g : Graph} {u v : V} {w : EdgeW} (h : edgeW g u v = some w) :
    ∃ row, alookup g u = some row ∧ alookup row v = some w := by
  unfold edgeW at h
  cases hg : alookup g u with
  | none => rw [hg] at h; simp at h
  | some row => rw [hg] at h; exact ⟨row, rfl, h⟩

theorem WFG.edge_target_mem {g : Graph} (hg : WFG g) {u v : V} {w : EdgeW}
    (h : edgeW g u v = some w) : v ∈ keys g := by
  obtain ⟨row, hrow, hw⟩ := edgeW_elim h
  exact hg.closed (u, row) (alookup_mem hrow) (v, w) (alookup_mem hw)

theorem WFG.edge_pos {g : Graph} (hg : WFG g) {u v : V} {w : EdgeW} (m : Metric)
    (h : edgeW g u v = some w) : 0 < primW m w := by
  obtain ⟨row, hrow, hw⟩ := edgeW_elim h
  cases m with
  | distance => exact hg.pos_distance (u, row) (alookup_mem hrow) (v, w) (alookup_mem hw)
  | cost => exact hg.pos_cost (u, row) (alookup_mem hrow) (v, w) (alookup_mem hw)

theorem WFG.edgeW_of_row_mem {g : Graph} (hg : WFG g) {u : V} {row : List (V × EdgeW)}
    {v : V} {w : EdgeW} (hrow : alookup g u = some row) (hm : (v, w) ∈ row) :
    edgeW g u v = some w := by
  unfold edgeW
  rw [hrow]
  exact alookup_of_mem_nodup (hg.rows_nodup (u, row) (alookup_mem hrow)) hm

theorem walk_ne_nil {g : Graph} {s v : V} {p : List V} (h : IsWalk g s v p) : p ≠ [] := by
  cases h with
  | single => simp
  | snoc hw he => simp

theorem walk_last {g : Graph} {s v : V} {p : List V} (h : IsWalk g s v p) :
    p.getLast? = some v := by
  cases h with
  | single => rfl
  | snoc hw he => simp

theorem walk_head {g : Graph} {s v : V} {p : List V} (h : IsWalk g s v p) :
    p.head? = some s := by
  induction h with
  | single => rfl
  | snoc hw he ih =>
    rename_i p y x
    cases p with
    | nil => exact absurd rfl (walk_ne_nil hw)
    | cons a t => simpa using ih

theorem walk_mem_keys {g : Graph} (hg : WFG g) {s v : V} {p : List V}
    (hs : s ∈ keys g) (h : IsWalk g s v p) : ∀ x ∈ p, x ∈ keys g := by
  induction h with
  | single => intro x hx; simp at hx; simpa [hx]
  | snoc hw he ih =>
    rename_i q y x
    intro z hz
    rcases List.mem_append.mp hz with h1 | h2
    · exact ih z h1
    · simp at h2
      obtain ⟨w, hww⟩ := Option.isSome_iff_exists.mp he
      rw [h2]
      exact hg.edge_target_mem hww

theorem walk_target_mem {g : Graph} (hg : WFG g) {s v : V} {p : List V}
    (hs : s ∈ keys g) (h : IsWalk g s v p) : v ∈ keys g := by
  cases h with
  | single => exact hs
  | snoc hw he =>
    obtain ⟨w, hww⟩ := Option.isSome_iff_exists.mp he
    exact hg.edge_target_mem hww

theorem walkW_concat (f : EdgeW → Nat) (g : Graph) {p : List V} {y : V} (x : V)
    (h : p.getLast? = some y) :
    walkW f g (p ++ [x]) = enAdd (walkW f g p) ((edgeW g y x).map f) := by
  induction p with
  | nil => simp at h
  | cons a t ih =>
    cases t with
    | nil =>
      simp at h
      subst h
      show enAdd ((edgeW g a x).map f) (walkW f g [x]) = _
      show enAdd ((edgeW g a x).map f) (some 0) = enAdd (some 0) ((edgeW g a x).map f)
      exact enAdd_comm _ _
    | cons b t2 =>
      have hlast : (b :: t2).getLast? = some y := by
        rw [List.getLast?_cons_cons] at h
        exact h
      show enAdd ((edgeW g a b).map f) (walkW f g ((b :: t2) ++ [x])) = _
      rw [ih hlast]
      show _ = enAdd (enAdd ((edgeW g a b).map f) (walkW f g (b :: t2))) ((edgeW g y x).map f)
      rw [enAdd_assoc]

theorem walk_weight_finite (f : EdgeW → Nat) {g : Graph} {s v : V} {p : List V}
    (h : IsWalk g s v p) : ∃ n, walkW f g p = some n := by
  induction h with
  | single => exact ⟨0, rfl⟩
  | snoc hw he ih =>
    rename_i q y x
    obtain ⟨n, hn⟩ := ih
    obtain ⟨w, hww⟩ := Option.isSome_iff_exists.mp he
    refine ⟨n + f w, ?_⟩
    rw [walkW_concat f g x (walk_last hw), hn, hww]
    rfl

theorem dchain_head {nodes : Nodes} {x : V} {q : List V} (h : DChain nodes x q) :
    ∃ t, q = x :: t := by
  cases h with
  | last hl hn => exact ⟨[], rfl⟩
  | cons hl hn hc => exact ⟨_, rfl⟩

theorem dchain_path_loop {nodes : Nodes} {x : V} {q : List V} (h : DChain nodes x q) :
    ∀ acc fuel, q.length ≤ fuel →
      path_loop nodes fuel x (acc ++ [x]) = .ok (acc ++ q) := by
  induction h with
  | last hl hn =>
    intro acc fuel hf
    rename_i x st
    simp at hf
    cases fuel with
    | zero => omega
    | succ m =>
      show path_loop nodes (m + 1) x (acc ++ [x]) = _
      unfold path_loop
      rw [getE_ok_iff.mpr hl, except_bind_ok, hn]
  | cons hl hn hc ih =>
    intro acc fuel hf
    rename_i x y st q
    simp at hf
    cases fuel with
    | zero => omega
    | succ m =>
      show path_loop nodes (m + 1) x (acc ++ [x]) = _
      unfold path_loop
      rw [getE_ok_iff.mpr hl, except_bind_ok, hn]
      have h2 := ih (acc ++ [x]) m (by omega)
      simpa using h2

theorem path_loop_keyError {nodes : Nodes} {k : V} :
    ∀ fuel x acc, path_loop nodes fuel x acc = .error (.keyError k) →
      alookup nodes k = none := by
  intro fuel
  induction fuel with
  | zero =>
    intro x acc h
    simp [path_loop] at h
  | succ m ih =>
    intro x acc h
    unfold path_loop at h
    cases hg : getE nodes x with
    | error e =>
      rw [hg, except_bind_error] at h
      injection h with he
      obtain ⟨ha, he2⟩ := getE_error_iff.mp hg
      rw [he2] at he
      injection he with hk
      rw [← hk]
      exact ha
    | ok st =>
      rw [hg, except_bind_ok] at h
      cases hb : st.best_neighbour with
      | none => rw [hb] at h; simp at h
      | some d =>
        rw [hb] at h
        exact ih d (acc ++ [d]) h

theorem primA_of_field_eqs {st ust : NodeState} {w : EdgeW}
    (hd : st.distance = enAdd (some w.distance) ust.distance)
    (hc : st.cost = enAdd (some w.cost) ust.cost) (mm : Metric) :
    primA mm st = enAdd (some (primW mm w)) (primA mm ust) := by
  cases mm <;> simp [primA, primW, hd, hc]

theorem dijkinv_predCore {m : Metric} {g : Graph} {s : V} {unvisited : List V}
    {nodes : Nodes} (hI : DijkInv m g s unvisited nodes) : PredCore m g s nodes := by
  intro v st hl hv n hp
  obtain ⟨u, w, ust, hbn, _, hedge, hust, hd, hc⟩ := hI.pred v st hl hv n hp
  exact ⟨u, w, ust, hbn, hedge, hust, hd, hc⟩

/-- Upper-bound direction: a vertex with a finite primary accumulator has
a predecessor chain that is a simple walk from the start whose primary
weight is exactly the accumulator and whose secondary weight is exactly
the secondary accumulator. -/
theorem ub_walk {m : Metric} {g : Graph} {s : V} {nodes : Nodes}
    (hg : WFG g) (hsst : alookup nodes s = some ⟨some 0, some 0, none⟩)
    (hpc : PredCore m g s nodes) :
    ∀ n v st, alookup nodes v = some st → primA m st = some n →
      ∃ q, DChain nodes v q ∧ IsWalk g s v q.reverse ∧ q.Nodup ∧
        (∀ x ∈ q, ∃ xst, alookup nodes x = some xst ∧
          enLe (primA m xst) (some n) = true) ∧
        walkW (primW m) g q.reverse = some n ∧
        walkW (primW (otherM m)) g q.reverse = primA (otherM m) st := by
  intro n
  induction n using Nat.strong_induction_on with
  | _ n ih =>
    intro v st hl hp
    by_cases hvs : v = s
    · subst hvs
      have hst : st = ⟨some 0, some 0, none⟩ := by
        have := hsst
        rw [hl] at this
        injection this
      have hn0 : n = 0 := by
        rw [hst] at hp
        cases m <;> simp [primA] at hp <;> omega
      subst hn0
      refine ⟨[v], DChain.last hl (by rw [hst]), IsWalk.single, by simp, ?_, ?_, ?_⟩
      · intro x hx
        simp at hx
        subst hx
        exact ⟨st, hl, by rw [hp]; exact enLe_refl _⟩
      · rfl
      · rw [hst]; cases m <;> rfl
    · obtain ⟨u, w, ust, hbn, hedge, hust, hd, hc⟩ := hpc v st hl hvs n hp
      have hprim : primA m st = enAdd (some (primW m w)) (primA m ust) :=
        primA_of_field_eqs hd hc m
      rw [hp] at hprim
      obtain ⟨wp, k, hwp, hk, hnk⟩ := enAdd_finite hprim.symm
      injection hwp with hwp
      have hklt : k < n := by
        have := hg.edge_pos m hedge
        omega
      obtain ⟨q2, hchain, hwalk, hnd, hbound, hwprim, hwsec⟩ := ih k hklt u ust hust hk
      have hvq : v ∉ q2 := by
        intro hvmem
        obtain ⟨xst, hxl, hxb⟩ := hbound v hvmem
        rw [hl] at hxl
        injection hxl with hxl
        rw [← hxl, hp] at hxb
        rw [enLe_some_iff] at hxb
        omega
      have hlastq : q2.reverse.getLast? = some u := walk_last hwalk
      refine ⟨v :: q2, DChain.cons hl hbn hchain, ?_, by simp [hvq, hnd], ?_, ?_, ?_⟩
      · rw [List.reverse_cons]
        exact IsWalk.snoc hwalk (by rw [hedge]; rfl)
      · intro x hx
        rcases List.mem_cons.mp hx with he | h2
        · subst he
          exact ⟨st, hl, by rw [hp]; exact enLe_refl _⟩
        · obtain ⟨xst, hxl, hxb⟩ := hbound x h2
          refine ⟨xst, hxl, enLe_trans hxb ?_⟩
          rw [enLe_some_iff]
          omega
      · rw [List.reverse_cons, walkW_concat _ _ _ hlastq, hwprim, hedge]
        show enAdd (some k) (some (primW m w)) = some n
        rw [enAdd_some_some]
        simp only [Option.some.injEq]
        omega
      · rw [List.reverse_cons, walkW_concat _ _ _ hlastq, hwsec, hedge,
          primA_of_field_eqs hd hc (otherM m)]
        exact enAdd_comm _ _

/-- Specification of the linear minimum scan: it succeeds when every
scanned vertex has a state, returns either the seed or a scanned vertex
together with its metric value, and that value is a lower bound of the
seed value and of every scanned vertex's metric value. -/
theorem scan_min_spec {m : Metric} {nodes : Nodes} :
    ∀ (l : List V) (best : V) (minv : EN),
      (∀ v ∈ l, ∃ st, alookup nodes v = some st) →
      ∃ c mv, scan_min m nodes l best minv = .ok (c, mv) ∧
        (c = best ∧ mv = minv ∨
          ∃ cst, alookup nodes c = some cst ∧ c ∈ l ∧ mv = primA m cst) ∧
        enLe mv minv = true ∧
        ∀ y ∈ l, ∀ yst, alookup nodes y = some yst → enLe mv (primA m yst) = true := by
  intro l
  induction l with
  | nil =>
    intro best minv hl
    exact ⟨best, minv, rfl, Or.inl ⟨rfl, rfl⟩, enLe_refl _, by simp⟩
  | cons u rest ih =>
    intro best minv hl
    obtain ⟨st, hst⟩ := hl u (List.mem_cons_self u rest)
    have hrest : ∀ v ∈ rest, ∃ st2, alookup nodes v = some st2 :=
      fun v hv => hl v (List.mem_cons_of_mem _ hv)
    cases hlt : enLt (primA m st) minv with
    | true =>
      obtain ⟨c, mv, hsc, hdisj, hle, hall⟩ := ih u (primA m st) hrest
      refine ⟨c, mv, ?_, ?_, ?_, ?_⟩
      · unfold scan_min
        rw [getE_ok_iff.mpr hst, except_bind_ok, hlt]
        simpa using hsc
      · rcases hdisj with ⟨hc, hmv⟩ | ⟨cst, hcl, hcm, hmv⟩
        · exact Or.inr ⟨st, by rw [hc]; exact hst, by simp [hc], by rw [hmv]⟩
        · exact Or.inr ⟨cst, hcl, List.mem_cons_of_mem _ hcm, hmv⟩
      · exact enLe_trans hle (enLe_of_enLt hlt)
      · intro y hy yst hyl
        rcases List.mem_cons.mp hy with he | h2
        · subst he
          rw [hyl] at hst
          injection hst with hst
          rw [hst]
          exact hle
        · exact hall y h2 yst hyl
    | false =>
      obtain ⟨c, mv, hsc, hdisj, hle, hall⟩ := ih best minv hrest
      refine ⟨c, mv, ?_, ?_, hle, ?_⟩
      · unfold scan_min
        rw [getE_ok_iff.mpr hst, except_bind_ok, hlt]
        simpa using hsc
      · rcases hdisj with ⟨hc, hmv⟩ | ⟨cst, hcl, hcm, hmv⟩
        · exact Or.inl ⟨hc, hmv⟩
        · exact Or.inr ⟨cst, hcl, List.mem_cons_of_mem _ hcm, hmv⟩
      · intro y hy yst hyl
        rcases List.mem_cons.mp hy with he | h2
        · subst he
          rw [hyl] at hst
          injection hst with hst
          rw [hst]
          exact enLe_trans hle (not_enLt_iff.mp hlt)
        · exact hall y h2 yst hyl

/-- The argmin argument of Dijkstra's correctness proof: when `u` is an
unvisited vertex of minimum metric value, every walk from the start
either already weighs at least `u`'s accumulator, or ends in a finalized
vertex whose accumulator bounds its weight. -/
theorem lb_extend {m : Metric} {g : Graph} {s : V} {unvisited : List V} {nodes : Nodes}
    (hg : WFG g) (hI : DijkInv m g s unvisited nodes) {ust : NodeState}
    (hmin : ∀ y ∈ unvisited, ∀ yst, alookup nodes y = some yst →
      enLe (primA m ust) (primA m yst) = true) :
    ∀ x p, IsWalk g s x p →
      enLe (primA m ust) (walkW (primW m) g p) = true ∨
      (x ∉ unvisited ∧ ∃ xst, alookup nodes x = some xst ∧
        enLe (primA m xst) (walkW (primW m) g p) = true) := by
  intro x p hwalk
  induction hwalk with
  | single =>
    by_cases hs : s ∈ unvisited
    · left
      have h0 := hmin s hs _ hI.s_state
      have hpz : primA m (⟨some 0, some 0, none⟩ : NodeState) = some 0 := by
        cases m <;> rfl
      rw [hpz] at h0
      exact h0
    · right
      refine ⟨hs, ⟨⟨some 0, some 0, none⟩, hI.s_state, ?_⟩⟩
      have hpz : primA m (⟨some 0, some 0, none⟩ : NodeState) = some 0 := by
        cases m <;> rfl
      rw [hpz]
      exact enLe_refl _
  | snoc hw he ih =>
    rename_i q y x2
    obtain ⟨w, hww⟩ := Option.isSome_iff_exists.mp he
    have hweq : walkW (primW m) g (q ++ [x2]) =
        enAdd (walkW (primW m) g q) (some (primW m w)) := by
      rw [walkW_concat _ _ _ (walk_last hw), hww]
      rfl
    have hx2 : x2 ∈ keys g := hg.edge_target_mem hww
    have hx2n : x2 ∈ keys nodes := by rw [hI.keys_eq]; exact hx2
    obtain ⟨xst, hxl⟩ := alookup_isSome_of_mem_keys hx2n
    rcases ih with h1 | ⟨hyn, yst, hyl, hyb⟩
    · left
      rw [hweq]
      exact enLe_trans h1 (enLe_enAdd_right _ _)
    · have hrel := hI.relaxed y yst hyl hyn x2 w hww (fun _ => List.not_mem_nil _) xst hxl
      have hb2 : enLe (primA m xst) (walkW (primW m) g (q ++ [x2])) = true := by
        rw [hweq]
        refine enLe_trans hrel ?_
        rw [enAdd_comm (walkW (primW m) g q) (some (primW m w))]
        exact enAdd_le_enAdd_left _ hyb
      by_cases hxu : x2 ∈ unvisited
      · left
        exact enLe_trans (hmin x2 hxu xst hxl) hb2
      · right
        exact ⟨hxu, xst, hxl, hb2⟩

/-- The relaxation test of lines 119-120 expressed through the metric
selectors. -/
theorem fire_eq (m : Metric) (w : EdgeW) (cur nbst : NodeState) :
    (match m with
      | .distance => enLt (enAdd (some w.distance) cur.distance) nbst.distance
      | .cost => enLt (enAdd (some w.cost) cur.cost) nbst.cost) =
    enLt (enAdd (some (primW m w)) (primA m cur)) (primA m nbst) := by
  cases m <;> rfl

/-- When the finiteness pairing holds and the selected accumulator is
finite, both alternate values of the relaxation body are finite. -/
theorem alt_finite_of_prim {m : Metric} {cur : NodeState} (w : EdgeW) {k : Nat}
    (hpair : cur.distance = none ↔ cur.cost = none)
    (hk : primA m cur = some k) :
    ∃ a b, enAdd (some w.distance) cur.distance = some a ∧
      enAdd (some w.cost) cur.cost = some b := by
  cases m with
  | distance =>
    have hd : cur.distance = some k := hk
    have hc : cur.cost ≠ none := fun hc => by
      have := hpair.mpr hc
      rw [hd] at this
      exact Option.noConfusion this
    obtain ⟨b0, hb⟩ := Option.ne_none_iff_exists.mp hc
    exact ⟨w.distance + k, w.cost + b0, by rw [hd]; rfl, by rw [← hb]; rfl⟩
  | cost =>
    have hd : cur.cost = some k := hk
    have hc : cur.distance ≠ none := fun hc => by
      have := hpair.mp hc
      rw [hd] at this
      exact Option.noConfusion this
    obtain ⟨b0, hb⟩ := Option.ne_none_iff_exists.mp hc
    exact ⟨w.distance + b0, w.cost + k, by rw [← hb]; rfl, by rw [hd]; rfl⟩

/-- Evaluation of the relaxation body on an entry that fires. -/
theorem recalc_step_cons_fire {m : Metric} {u v : V} {w : EdgeW}
    {sufRest : List (V × EdgeW)} {nodes : Nodes} {cur nbst : NodeState}
    (hcur : alookup nodes u = some cur) (hnbst : alookup nodes v = some nbst)
    (hfire : enLt (enAdd (some (primW m w)) (primA m cur)) (primA m nbst) = true)
    {a b : Nat} (had : enAdd (some w.distance) cur.distance = some a)
    (hac : enAdd (some w.cost) cur.cost = some b) :
    recalc_step m u ((v, w) :: sufRest) nodes =
      recalc_step m u sufRest (aset nodes v ⟨some b, some a, some u⟩) := by
  rw [← fire_eq m w cur nbst] at hfire
  conv_lhs => unfold recalc_step
  rw [getE_ok_iff.mpr hcur, except_bind_ok, getE_ok_iff.mpr hnbst, except_bind_ok, hfire]
  simp only [if_true]
  rw [had, hac]
  rfl

/-- Evaluation of the relaxation body on an entry that does not fire. -/
theorem recalc_step_cons_skip {m : Metric} {u v : V} {w : EdgeW}
    {sufRest : List (V × EdgeW)} {nodes : Nodes} {cur nbst : NodeState}
    (hcur : alookup nodes u = some cur) (hnbst : alookup nodes v = some nbst)
    (hfire : enLt (enAdd (some (primW m w)) (primA m cur)) (primA m nbst) = false) :
    recalc_step m u ((v, w) :: sufRest) nodes = recalc_step m u sufRest nodes := by
  rw [← fire_eq m w cur nbst] at hfire
  conv_lhs => unfold recalc_step
  rw [getE_ok_iff.mpr hcur, except_bind_ok, getE_ok_iff.mpr hnbst, except_bind_ok]
  simp only [hfire, if_false, Bool.false_eq_true]

theorem dijkinvmid_predCore {m : Metric} {g : Graph} {s u : V} {unvisited : List V}
    {exc : List (V × EdgeW)} {nodes : Nodes}
    (hM : DijkInvMid m g s u unvisited exc nodes) : PredCore m g s nodes := by
  intro v st hl hv n hp
  obtain ⟨u2, w, ust, hbn, _, hedge, hust, hd, hc⟩ := hM.pred v st hl hv n hp
  exact ⟨u2, w, ust, hbn, hedge, hust, hd, hc⟩

theorem dijkinv_of_mid {m : Metric} {g : Graph} {s u : V} {unvE : List V}
    {nodes : Nodes} (h : DijkInvMid m g s u unvE [] nodes) :
    DijkInv m g s unvE nodes :=
  ⟨h.keys_eq, h.unv_sub, h.unv_nodup, h.s_mem, h.s_state, h.pairing, h.unreached,
    h.pred, h.lb,
    fun q qst hq hqn v w he _ vst hv =>
      h.relaxed q qst hq hqn v w he (fun _ => List.not_mem_nil _) vst hv⟩

/-- The relaxation fold preserves the invariant: running `recalc_step`
over the pending entries of the freshly finalized vertex `u` succeeds,
restores the exception-free invariant, and leaves every finalized
vertex's state untouched. -/
theorem recalc_go {m : Metric} {g : Graph} {s u : V} {unvE : List V}
    {row : List (V × EdgeW)} (hg : WFG g) (hrow : alookup g u = some row)
    (hun : u ∉ unvE) (hukeys : u ∈ keys g) :
    ∀ suf nodes, (∀ e ∈ suf, e ∈ row) →
      DijkInvMid m g s u unvE suf nodes →
      ∃ nodes2, recalc_step m u suf nodes = .ok nodes2 ∧
        DijkInvMid m g s u unvE [] nodes2 ∧
        ∀ z, z ∉ unvE → alookup nodes2 z = alookup nodes z := by
  intro suf
  induction suf with
  | nil =>
    intro nodes hsub hM
    exact ⟨nodes, rfl, hM, fun z hz => rfl⟩
  | cons e sufRest ih =>
    obtain ⟨v, w⟩ := e
    intro nodes hsub hM
    have hsubR : ∀ e2 ∈ sufRest, e2 ∈ row := fun e2 he2 => hsub e2 (List.mem_cons_of_mem _ he2)
    have hedge : edgeW g u v = some w :=
      hg.edgeW_of_row_mem hrow (hsub _ (List.mem_cons_self _ _))
    have hvkeys : v ∈ keys g := hg.edge_target_mem hedge
    have hukn : u ∈ keys nodes := by rw [hM.keys_eq]; exact hukeys
    have hvkn : v ∈ keys nodes := by rw [hM.keys_eq]; exact hvkeys
    obtain ⟨cur, hcur⟩ := alookup_isSome_of_mem_keys hukn
    obtain ⟨nbst, hnbst⟩ := alookup_isSome_of_mem_keys hvkn
    cases hfire : enLt (enAdd (some (primW m w)) (primA m cur)) (primA m nbst) with
    | false =>
      have hMR : DijkInvMid m g s u unvE sufRest nodes := by
        refine ⟨hM.keys_eq, hM.unv_sub, hM.unv_nodup, hM.s_mem, hM.s_state, hM.pairing,
          hM.unreached, hM.pred, hM.lb, ?_⟩
        intro q qst hq hqn v2 w2 he2 hexc vst2 hv2l
        by_cases hqp : q = u ∧ (v2, w2) = (v, w)
        · obtain ⟨hqu, hpr⟩ := hqp
          subst hqu
          injection hpr with h1 h2
          subst h1
          subst h2
          rw [hcur] at hq
          injection hq with hq
          subst hq
          rw [hnbst] at hv2l
          injection hv2l with hv2l
          subst hv2l
          exact not_enLt_iff.mp hfire
        · refine hM.relaxed q qst hq hqn v2 w2 he2 ?_ vst2 hv2l
          intro hqu hmem
          rcases List.mem_cons.mp hmem with he | hm
          · exact hqp ⟨hqu, he⟩
          · exact hexc hqu hm
      obtain ⟨nodes2, hrun, hfin, hunch⟩ := ih nodes hsubR hMR
      exact ⟨nodes2, by rw [recalc_step_cons_skip hcur hnbst hfire]; exact hrun, hfin, hunch⟩
    | true =>
      obtain ⟨nalt, halt⟩ := enLt_finite hfire
      obtain ⟨wp, k, hwpeq, hk, hsum⟩ := enAdd_finite halt
      injection hwpeq with hwpeq
      obtain ⟨a, b, had, hac⟩ := alt_finite_of_prim w (hM.pairing u cur hcur) hk
      have hvs : v ≠ s := by
        intro hvs
        subst hvs
        rw [hM.s_state] at hnbst
        injection hnbst with hnbst
        have hz : primA m nbst = some 0 := by rw [← hnbst]; cases m <;> rfl
        rw [halt, hz, enLt_some_iff] at hfire
        omega
      have hprim_new :
          primA m (⟨some b, some a, some u⟩ : NodeState) =
            enAdd (some (primW m w)) (primA m cur) := by
        cases m <;> simp [primA, primW, had, hac]
      have hv_unv : v ∈ unvE := by
        by_contra hvn
        obtain ⟨q, _, hwalk, _, _, hwprim, _⟩ :=
          ub_walk hg hM.s_state (dijkinvmid_predCore hM) k u cur hcur hk
        have hwalkv : IsWalk g s v (q.reverse ++ [v]) :=
          IsWalk.snoc hwalk (by rw [hedge]; rfl)
        have hb2 := hM.lb v nbst hnbst hvn _ hwalkv
        rw [walkW_concat _ _ _ (walk_last hwalk), hwprim, hedge] at hb2
        have habs := enLt_of_enLt_of_enLe hfire hb2
        rw [halt] at habs
        have : enAdd (some k) (Option.map (primW m) (some w)) = some (k + primW m w) := rfl
        rw [this, enLt_some_iff] at habs
        omega
      have hvu : v ≠ u := fun he => hun (he ▸ hv_unv)
      have hvmemN : v ∈ keys nodes := by rw [hM.keys_eq]; exact hvkeys
      have hself : alookup (aset nodes v ⟨some b, some a, some u⟩) v =
          some ⟨some b, some a, some u⟩ := alookup_aset_self _ hvmemN
      have hMR : DijkInvMid m g s u unvE sufRest
          (aset nodes v ⟨some b, some a, some u⟩) := by
        refine ⟨?_, hM.unv_sub, hM.unv_nodup, hM.s_mem, ?_, ?_, ?_, ?_, ?_, ?_⟩
        · rw [keys_aset]; exact hM.keys_eq
        · rw [alookup_aset_ne _ _ (Ne.symm hvs)]; exact hM.s_state
        · intro v2 st2 hl2
          by_cases hv2 : v2 = v
          · subst hv2
            rw [hself] at hl2
            injection hl2 with hl2
            subst hl2
            simp
          · rw [alookup_aset_ne _ _ hv2] at hl2
            exact hM.pairing v2 st2 hl2
        · intro v2 st2 hl2 hv2s hpn
          by_cases hv2 : v2 = v
          · subst hv2
            rw [hself] at hl2
            injection hl2 with hl2
            subst hl2
            rw [hprim_new, halt] at hpn
            exact Option.noConfusion hpn
          · rw [alookup_aset_ne _ _ hv2] at hl2
            exact hM.unreached v2 st2 hl2 hv2s hpn
        · intro v2 st2 hl2 hv2s n hpn
          by_cases hv2 : v2 = v
          · subst hv2
            rw [hself] at hl2
            injection hl2 with hl2
            subst hl2
            refine ⟨u, w, cur, rfl, hun, hedge, ?_, had.symm, hac.symm⟩
            rw [alookup_aset_ne _ _ (Ne.symm hvu)]
            exact hcur
          · rw [alookup_aset_ne _ _ hv2] at hl2
            obtain ⟨u2, w2, ust2, hbn2, hu2n, he2, hust2, hd2, hc2⟩ :=
              hM.pred v2 st2 hl2 hv2s n hpn
            have hu2v : u2 ≠ v := fun he => hu2n (he ▸ hv_unv)
            refine ⟨u2, w2, ust2, hbn2, hu2n, he2, ?_, hd2, hc2⟩
            rw [alookup_aset_ne _ _ hu2v]
            exact hust2
        · intro v2 st2 hl2 hv2n p hp
          have hv2 : v2 ≠ v := fun he => hv2n (he ▸ hv_unv)
          rw [alookup_aset_ne _ _ hv2] at hl2
          exact hM.lb v2 st2 hl2 hv2n p hp
        · intro q qst hq hqn v2 w2 he2 hexc vst2 hv2l
          have hqv : q ≠ v := fun he => hqn (he ▸ hv_unv)
          rw [alookup_aset_ne _ _ hqv] at hq
          by_cases hv2 : v2 = v
          · rw [hv2] at hv2l he2
            rw [hself] at hv2l
            injection hv2l with hv2l
            subst hv2l
            by_cases hqu : q = u
            · subst hqu
              rw [hcur] at hq
              injection hq with hq
              subst hq
              rw [hedge] at he2
              injection he2 with he2
              subst he2
              rw [hprim_new]
              exact enLe_refl _
            · have hold := hM.relaxed q qst hq hqn _ w2 he2
                (fun hc => absurd hc hqu) nbst hnbst
              rw [hprim_new, halt]
              exact enLe_trans (enLe_of_enLt (by rw [← halt]; exact hfire)) hold
          · rw [alookup_aset_ne _ _ hv2] at hv2l
            refine hM.relaxed q qst hq hqn v2 w2 he2 ?_ vst2 hv2l
            intro hqu hmem
            rcases List.mem_cons.mp hmem with he | hm
            · injection he with he1 he2x
              exact hv2 he1
            · exact hexc hqu hm
      obtain ⟨nodes2, hrun, hfin, hunch⟩ := ih _ hsubR hMR
      refine ⟨nodes2, ?_, hfin, ?_⟩
      · rw [recalc_step_cons_fire hcur hnbst hfire had hac]
        exact hrun
      · intro z hz
        rw [hunch z hz]
        have hzv : z ≠ v := fun he => hz (he ▸ hv_unv)
        exact alookup_aset_ne _ _ hzv

/-- One iteration of the main loop: from an invariant state with a
nonempty unvisited list, the body runs without error, the invariant is
restored on the shrunk unvisited list, and no finalized vertex's state
changes. -/
theorem dijkstra_step {m : Metric} {g : Graph} {s x : V} {rest : List V} {nodes : Nodes}
    (hg : WFG g) (hI : DijkInv m g s (x :: rest) nodes) :
    ∃ unvE nodesN,
      (∀ fuel, dijkstra_loop m g (fuel + 1) (x :: rest) nodes =
        dijkstra_loop m g fuel unvE nodesN) ∧
      DijkInv m g s unvE nodesN ∧
      (∀ z, z ∉ x :: rest → alookup nodesN z = alookup nodes z) ∧
      unvE.length + 1 = (x :: rest).length ∧
      (∀ y ∈ unvE, y ∈ x :: rest) := by
  have hall : ∀ v ∈ x :: rest, ∃ st, alookup nodes v = some st := by
    intro v hv
    have : v ∈ keys nodes := by rw [hI.keys_eq]; exact hI.unv_sub v hv
    exact alookup_isSome_of_mem_keys this
  obtain ⟨st0, hst0⟩ := hall x (List.mem_cons_self x rest)
  obtain ⟨c, mv, hsc, hdisj, hle, hminall⟩ :=
    scan_min_spec (x :: rest) x (primA m st0) hall
  have hcon : ∃ cst, alookup nodes c = some cst ∧ c ∈ x :: rest ∧ mv = primA m cst := by
    rcases hdisj with ⟨hc, hmv⟩ | ⟨cst, hcl, hcm, hmv⟩
    · exact ⟨st0, by rw [hc]; exact hst0, by simp [hc], hmv⟩
    · exact ⟨cst, hcl, hcm, hmv⟩
  obtain ⟨cst, hcl, hc_mem, hmv⟩ := hcon
  have hminC : ∀ y ∈ x :: rest, ∀ yst, alookup nodes y = some yst →
      enLe (primA m cst) (primA m yst) = true := by
    intro y hy yst hyl
    rw [← hmv]
    exact hminall y hy yst hyl
  obtain ⟨unvE, hrem⟩ := list_remove_ok hc_mem
  have hmemiff := list_remove_mem_iff hI.unv_nodup hrem
  have hsubset : ∀ y ∈ unvE, y ∈ x :: rest := fun y hy => (hmemiff y).mp hy |>.1
  have hcu_n : c ∉ unvE := fun hc => ((hmemiff c).mp hc).2 rfl
  have hckeys : c ∈ keys g := hI.unv_sub c hc_mem
  obtain ⟨crow, hcrow⟩ := alookup_isSome_of_mem_keys hckeys
  have hlbc : ∀ p, IsWalk g s c p →
      enLe (primA m cst) (walkW (primW m) g p) = true := by
    intro p hp
    rcases lb_extend hg hI hminC c p hp with h1 | ⟨hcn, _⟩
    · exact h1
    · exact absurd hc_mem hcn
  have hMid : DijkInvMid m g s c unvE crow nodes := by
    refine ⟨hI.keys_eq, fun v hv => hI.unv_sub v (hsubset v hv),
      list_remove_nodup hI.unv_nodup hrem, hI.s_mem, hI.s_state, hI.pairing,
      hI.unreached, ?_, ?_, ?_⟩
    · intro v st hl hvs n hpn
      obtain ⟨u2, w2, ust2, hbn2, hu2n, he2, hust2, hd2, hc2⟩ := hI.pred v st hl hvs n hpn
      exact ⟨u2, w2, ust2, hbn2, fun hc => hu2n (hsubset u2 hc), he2, hust2, hd2, hc2⟩
    · intro v st hl hvn p hp
      by_cases hvm : v ∈ x :: rest
      · have hvc : v = c := by
          by_contra hne
          exact hvn ((hmemiff v).mpr ⟨hvm, hne⟩)
        subst hvc
        rw [hcl] at hl
        injection hl with hl
        subst hl
        exact hlbc p hp
      · exact hI.lb v st hl hvm p hp
    · intro q qst hq hqn v2 w2 he2 hexc vst2 hv2l
      by_cases hqm : q ∈ x :: rest
      · have hqc : q = c := by
          by_contra hne
          exact hqn ((hmemiff q).mpr ⟨hqm, hne⟩)
        obtain ⟨row2, hr2, hw2⟩ := edgeW_elim he2
        rw [hqc, hcrow] at hr2
        injection hr2 with hr2
        subst hr2
        exact absurd (alookup_mem hw2) (hexc hqc)
      · exact hI.relaxed q qst hq hqm v2 w2 he2 (fun _ => List.not_mem_nil _) vst2 hv2l
  obtain ⟨nodesN, hrun, hfinMid, hunch⟩ :=
    recalc_go hg hcrow hcu_n hckeys crow nodes (fun e he => he) hMid
  have hrnp : recalculate_neighbour_position g c nodes m = .ok nodesN := by
    unfold recalculate_neighbour_position
    rw [getE_ok_iff.mpr hcrow, except_bind_ok]
    exact hrun
  refine ⟨unvE, nodesN, ?_, dijkinv_of_mid hfinMid, ?_, ?_, hsubset⟩
  · intro fuel
    conv_lhs => unfold dijkstra_loop
    rw [getE_ok_iff.mpr hst0]
    simp only [except_bind_ok, hsc, hrem, hrnp]
  · intro z hz
    exact hunch z (fun hc => hz (hsubset z hc))
  · have := list_remove_length hrem
    simpa using this

/-- Running the main loop from an invariant state with fuel at least the
number of unvisited vertices succeeds and ends in an invariant state
with every vertex finalized. -/
theorem dijkstra_loop_ok {m : Metric} {g : Graph} {s : V} (hg : WFG g) :
    ∀ fuel unvisited nodes, DijkInv m g s unvisited nodes →
      unvisited.length ≤ fuel →
      ∃ r, dijkstra_loop m g fuel unvisited nodes = .ok r ∧ DijkInv m g s [] r := by
  intro fuel
  induction fuel with
  | zero =>
    intro unv nodes hI hlen
    cases unv with
    | nil => exact ⟨nodes, rfl, hI⟩
    | cons x rest => simp at hlen
  | succ f ih =>
    intro unv nodes hI hlen
    cases unv with
    | nil => exact ⟨nodes, rfl, hI⟩
    | cons x rest =>
      obtain ⟨unvE, nodesN, heq, hI2, _, hlen2, _⟩ := dijkstra_step hg hI
      obtain ⟨r, hr, hIr⟩ := ih unvE nodesN hI2 (by simp at hlen hlen2 ⊢; omega)
      exact ⟨r, by rw [heq f]; exact hr, hIr⟩

/-- Once finalized, a vertex's whole node state is untouched by the rest
of the loop. -/
theorem dijkstra_loop_finalized {m : Metric} {g : Graph} {s : V} (hg : WFG g) :
    ∀ fuel unvisited nodes r z, DijkInv m g s unvisited nodes →
      dijkstra_loop m g fuel unvisited nodes = .ok r → z ∉ unvisited →
      alookup r z = alookup nodes z := by
  intro fuel
  induction fuel with
  | zero =>
    intro unv nodes r z hI hrun hz
    cases unv with
    | nil =>
      injection hrun with h
      rw [← h]
    | cons x rest =>
      injection hrun
  | succ f ih =>
    intro unv nodes r z hI hrun hz
    cases unv with
    | nil =>
      injection hrun with h
      rw [← h]
    | cons x rest =>
      obtain ⟨unvE, nodesN, heq, hI2, hunch, _, hsub⟩ := dijkstra_step hg hI
      rw [heq f] at hrun
      have h1 := ih unvE nodesN r z hI2 hrun (fun hc => hz (hsub z hc))
      rw [h1, hunch z hz]

/-- The loop never stops with an `OverflowError`: whenever the relaxation
test fires, both alternate values are finite. -/
theorem dijkstra_loop_no_overflow {m : Metric} {g : Graph} {s : V} (hg : WFG g) :
    ∀ fuel unvisited nodes, DijkInv m g s unvisited nodes →
      dijkstra_loop m g fuel unvisited nodes ≠ .error .overflowError := by
  intro fuel
  induction fuel with
  | zero =>
    intro unv nodes hI
    cases unv with
    | nil => exact fun h => Except.noConfusion h
    | cons x rest =>
      intro h
      injection h with h2
      exact Err.noConfusion h2
  | succ f ih =>
    intro unv nodes hI
    cases unv with
    | nil => exact fun h => Except.noConfusion h
    | cons x rest =>
      obtain ⟨unvE, nodesN, heq, hI2, _, _, _⟩ := dijkstra_step hg hI
      rw [heq f]
      exact ih unvE nodesN hI2

/-- The initialisation of `calculate_shortest_paths` establishes the
invariant with every vertex unvisited. -/
theorem dijkinv_init {m : Metric} {g : Graph} {s : V} (hg : WFG g) (hs : s ∈ keys g) :
    DijkInv m g s (keys g) (aset (initNodes g) s ⟨some 0, some 0, none⟩) := by
  have hsm : s ∈ keys (initNodes g) := by rw [keys_initNodes]; exact hs
  have hother : ∀ v, v ≠ s →
      alookup (aset (initNodes g) s ⟨some 0, some 0, none⟩) v =
        (alookup g v).map (fun _ => ⟨none, none, none⟩) := by
    intro v hv
    rw [alookup_aset_ne _ _ hv, alookup_initNodes]
  refine ⟨?_, fun v hv => hv, hg.keys_nodup, hs, alookup_aset_self _ hsm, ?_, ?_, ?_, ?_, ?_⟩
  · rw [keys_aset, keys_initNodes]
  · intro v st hl
    by_cases hv : v = s
    · subst hv
      rw [alookup_aset_self _ hsm] at hl
      injection hl with hl
      rw [← hl]
    · rw [hother v hv] at hl
      cases hgv : alookup g v with
      | none => rw [hgv] at hl; exact Option.noConfusion hl
      | some row =>
        rw [hgv] at hl
        injection hl with hl
        rw [← hl]
  · intro v st hl hv hpn
    rw [hother v hv] at hl
    cases hgv : alookup g v with
    | none => rw [hgv] at hl; exact Option.noConfusion hl
    | some row =>
      rw [hgv] at hl
      injection hl with hl
      rw [← hl]
  · intro v st hl hv n hpn
    rw [hother v hv] at hl
    cases hgv : alookup g v with
    | none => rw [hgv] at hl; exact Option.noConfusion hl
    | some row =>
      rw [hgv] at hl
      injection hl with hl
      rw [← hl] at hpn
      have : primA m (⟨none, none, none⟩ : NodeState) = none := by cases m <;> rfl
      rw [this] at hpn
      exact Option.noConfusion hpn
  · intro v st hl hvn p hp
    have : v ∈ keys g := by
      have := mem_keys_of_alookup hl
      rw [keys_aset, keys_initNodes] at this
      exact this
    exact absurd this hvn
  · intro q qst hq hqn v w he hexc vst hv
    have : q ∈ keys g := by
      have := mem_keys_of_alookup hq
      rw [keys_aset, keys_initNodes] at this
      exact this
    exact absurd this hqn

/-- A successful full run of `calculate_shortest_paths` from a
well-formed graph and a start vertex that is a graph key, ending in the
all-finalized invariant state. -/
theorem calc_run (m : Metric) {g : Graph} {s : V} (hg : WFG g) (hs : s ∈ keys g) :
    ∃ r, calculate_shortest_paths m g s = .ok r ∧ DijkInv m g s [] r := by
  have hinit : alookup (initNodes g) s = some ⟨none, none, none⟩ := by
    rw [alookup_initNodes]
    obtain ⟨row, hrow⟩ := alookup_isSome_of_mem_keys hs
    rw [hrow]
    rfl
  obtain ⟨r, hr, hIr⟩ :=
    dijkstra_loop_ok hg (keys g).length (keys g) _ (dijkinv_init hg hs) le_rfl
  refine ⟨r, ?_, hIr⟩
  unfold calculate_shortest_paths
  rw [getE_ok_iff.mpr hinit]
  simp only [except_bind_ok]
  exact hr

/-- The finiteness pairing transfers to the secondary accumulator. -/
theorem sec_finite_of_prim {m : Metric} {st : NodeState} {n : Nat}
    (hpair : st.distance = none ↔ st.cost = none) (hp : primA m st = some n) :
    ∃ k, primA (otherM m) st = some k := by
  cases m with
  | distance =>
    have hd : st.distance = some n := hp
    have hne : st.cost ≠ none := fun hc => by
      rw [hpair.mpr hc] at hd
      exact Option.noConfusion hd
    obtain ⟨k, hk⟩ := Option.ne_none_iff_exists.mp hne
    exact ⟨k, hk.symm⟩
  | cost =>
    have hd : st.cost = some n := hp
    have hne : st.distance ≠ none := fun hc => by
      rw [hpair.mp hc] at hd
      exact Option.noConfusion hd
    obtain ⟨k, hk⟩ := Option.ne_none_iff_exists.mp hne
    exact ⟨k, hk.symm⟩

/-- In the all-finalized state a reachable vertex has a finite primary
accumulator. -/
theorem final_prim_finite {m : Metric} {g : Graph} {s : V} {r : Nodes}
    (hI : DijkInv m g s [] r) {v : V} {st : NodeState}
    (hl : alookup r v = some st) {p : List V} (hp : IsWalk g s v p) :
    ∃ n, primA m st = some n := by
  cases hpn : primA m st with
  | some n => exact ⟨n, rfl⟩
  | none =>
    have hb := hI.lb v st hl (List.not_mem_nil v) p hp
    rw [hpn] at hb
    have hnone := enLe_none_left hb
    obtain ⟨n2, hw⟩ := walk_weight_finite (primW m) hp
    rw [hw] at hnone
    exact absurd hnone (by simp)

theorem nodup_length_le {q l : List V} (hnd : q.Nodup) (hsub : ∀ x ∈ q, x ∈ l) :
    q.length ≤ l.length := by
  classical
  calc q.length = q.toFinset.card := (List.toFinset_card_of_nodup hnd).symm
    _ ≤ l.toFinset.card := Finset.card_le_card (fun x hx => by
        rw [List.mem_toFinset] at hx ⊢
        exact hsub x hx)
    _ ≤ l.length := l.toFinset_card_le

theorem alookup_singleton {α : Type} {k v : V} {a b : α}
    (h : alookup [(k, a)] v = some b) : k = v ∧ b = a := by
  unfold alookup at h
  by_cases hk : k = v
  · simp [hk] at h
    exact ⟨hk, h.symm⟩
  · simp [alookup, hk] at h

/-! ## `create_graph` facts -/

theorem create_graph_keys {rows : List Row} {g : Graph}
    (h : create_graph rows = .ok g) : keys g = rows.map Row.point := by
  induction rows generalizing g with
  | nil =>
    injection h with h
    rw [← h]
    rfl
  | cons row rest ih =>
    unfold create_graph at h
    cases hb : build_row_cells row.cells with
    | error e => rw [hb, except_bind_error] at h; exact Except.noConfusion h
    | ok cells =>
      rw [hb, except_bind_ok] at h
      cases hr : create_graph rest with
      | error e => rw [hr, except_bind_error] at h; exact Except.noConfusion h
      | ok g2 =>
        rw [hr, except_bind_ok] at h
        injection h with h
        rw [← h]
        have h2 := ih hr
        simp only [keys] at h2
        simp [keys, h2]

theorem create_graph_entries {rows : List Row} {g : Graph}
    (h : create_graph rows = .ok g) :
    ∀ row ∈ rows, ∃ cells, build_row_cells row.cells = .ok cells ∧
      (row.point, cells) ∈ g := by
  induction rows generalizing g with
  | nil => simp
  | cons row0 rest ih =>
    unfold create_graph at h
    cases hb : build_row_cells row0.cells with
    | error e => rw [hb, except_bind_error] at h; exact Except.noConfusion h
    | ok cells =>
      rw [hb, except_bind_ok] at h
      cases hr : create_graph rest with
      | error e => rw [hr, except_bind_error] at h; exact Except.noConfusion h
      | ok g2 =>
        rw [hr, except_bind_ok] at h
        injection h with h
        intro row hrow
        rcases List.mem_cons.mp hrow with he | hm
        · subst he
          exact ⟨cells, hb, by rw [← h]; exact List.mem_cons_self _ _⟩
        · obtain ⟨cells2, hb2, hm2⟩ := ih hr row hm
          exact ⟨cells2, hb2, by rw [← h]; exact List.mem_cons_of_mem _ hm2⟩

theorem build_row_cells_keys_sub {cells : List (V × List Nat)} {out : List (V × EdgeW)}
    (h : build_row_cells cells = .ok out) :
    ∀ e ∈ out, e.1 ∈ keys cells := by
  induction cells generalizing out with
  | nil =>
    injection h with h
    rw [← h]
    simp
  | cons c rest ih =>
    obtain ⟨ep, ns⟩ := c
    unfold build_row_cells at h
    by_cases h0 : 0 ∈ ns
    · simp only [h0, if_true] at h
      intro e he
      exact List.mem_cons_of_mem _ (ih h e he)
    · simp only [h0, if_false] at h
      cases ns with
      | nil => exact Except.noConfusion h
      | cons n0 ns2 =>
        cases ns2 with
        | nil => exact Except.noConfusion h
        | cons n1 ns3 =>
          cases hrest : build_row_cells rest with
          | error e =>
            rw [hrest] at h
            exact Except.noConfusion h
          | ok out2 =>
            rw [hrest] at h
            injection h with h
            intro e he
            rw [← h] at he
            rcases List.mem_cons.mp he with hee | hm
            · rw [hee]
              exact List.mem_cons_self _ _
            · exact List.mem_cons_of_mem _ (ih hrest e hm)

theorem build_row_cells_zero {cells : List (V × List Nat)} {out : List (V × EdgeW)}
    (h : build_row_cells cells = .ok out) {ep : V} {numbers : List Nat}
    (hmem : (ep, numbers) ∈ cells) (h0 : 0 ∈ numbers)
    (hnd : (keys cells).Nodup) : alookup out ep = none := by
  induction cells generalizing out with
  | nil => simp at hmem
  | cons c rest ih =>
    obtain ⟨ep2, ns2⟩ := c
    have hnd2 : ep2 ∉ keys rest ∧ (keys rest).Nodup := by
      simpa [keys] using hnd
    rcases List.mem_cons.mp hmem with he | hm
    · injection he with he1 he2
      subst he1
      subst he2
      unfold build_row_cells at h
      simp only [h0, if_true] at h
      rw [alookup_eq_none_iff]
      intro hc
      unfold keys at hc
      obtain ⟨e2, he2, hee⟩ := List.mem_map.mp hc
      have hsub := build_row_cells_keys_sub h e2 he2
      rw [hee] at hsub
      exact hnd2.1 hsub
    · have hep_rest : ep ∈ keys rest := by
        simp only [keys, List.mem_map]
        exact ⟨(ep, numbers), hm, rfl⟩
      have hne : ep2 ≠ ep := fun he => hnd2.1 (he ▸ hep_rest)
      unfold build_row_cells at h
      by_cases hz : 0 ∈ ns2
      · simp only [hz, if_true] at h
        exact ih h hm hnd2.2
      · simp only [hz, if_false] at h
        cases ns2 with
        | nil => exact Except.noConfusion h
        | cons n0 ns3 =>
          cases ns3 with
          | nil => exact Except.noConfusion h
          | cons n1 ns4 =>
            cases hrest : build_row_cells rest with
            | error e =>
              rw [hrest] at h
              exact Except.noConfusion h
            | ok out2 =>
              rw [hrest] at h
              injection h with h
              rw [← h]
              unfold alookup
              rw [if_neg hne]
              exact ih hrest hm hnd2.2

/-! ## Monotonicity without positivity

The finalized-accumulator monotonicity of the main loop does not need
strictly positive weights: it only needs that a relaxation writes
`value(current) + weight ≥ value(current)`, which holds for all natural
(non-negative) weights.  The lemmas below redo the step preservation for
the weak invariant `MonoInv`, conditionally on the run succeeding, so no
graph well-formedness hypotheses are required either. -/

/-- `toIntE` succeeds exactly on finite values. -/
theorem toIntE_ok_iff {x : EN} {n : Nat} : toIntE x = .ok n ↔ x = some n := by
  cases x <;> simp [toIntE]

/-- A successful minimum scan looked up every scanned vertex. -/
theorem scan_min_ok_lookups {m : Metric} {nodes : Nodes} :
    ∀ (l : List V) (best : V) (minv : EN) (p : V × EN),
      scan_min m nodes l best minv = .ok p →
      ∀ y ∈ l, ∃ yst, alookup nodes y = some yst := by
  intro l
  induction l with
  | nil =>
    intro best minv p h y hy
    simp at hy
  | cons u rest ih =>
    intro best minv p h y hy
    unfold scan_min at h
    cases hg : getE nodes u with
    | error e =>
      rw [hg, except_bind_error] at h
      exact Except.noConfusion h
    | ok st =>
      rw [hg, except_bind_ok] at h
      rcases List.mem_cons.mp hy with he | hm
      · exact ⟨st, by rw [he]; exact getE_ok_iff.mp hg⟩
      · cases hlt : enLt (primA m st) minv with
        | true =>
          rw [hlt] at h
          simp only [if_true] at h
          exact ih u (primA m st) p h y hm
        | false =>
          rw [hlt] at h
          simp only [Bool.false_eq_true, if_false] at h
          exact ih best minv p h y hm

/-- The relaxation fold of a freshly finalized vertex `c`, conditional
on success: states outside the new unvisited list are untouched (in
particular the already-finalized ones), and every unvisited value stays
at least `c`'s value — with no positivity assumption on the weights (a
zero-weight relaxation writes exactly `c`'s value). -/
theorem recalc_step_mono {m : Metric} {c : V} {cst : NodeState} {unvE : List V}
    {nodes0 : Nodes}
    (hc_unvE : c ∉ unvE)
    (hcl0 : alookup nodes0 c = some cst)
    (hout : ∀ v vst, alookup nodes0 v = some vst → v ∉ unvE → v ≠ c →
      enLe (primA m vst) (primA m cst) = true) :
    ∀ suf nodes1,
      (∀ z, z ∉ unvE → alookup nodes1 z = alookup nodes0 z) →
      (∀ y ∈ unvE, ∀ yst, alookup nodes1 y = some yst →
        enLe (primA m cst) (primA m yst) = true) →
      ∀ nodes2, recalc_step m c suf nodes1 = .ok nodes2 →
        (∀ z, z ∉ unvE → alookup nodes2 z = alookup nodes0 z) ∧
        (∀ y ∈ unvE, ∀ yst, alookup nodes2 y = some yst →
          enLe (primA m cst) (primA m yst) = true) := by
  intro suf
  induction suf with
  | nil =>
    intro nodes1 HII1 HII2 nodes2 hrs
    injection hrs with hrs
    subst hrs
    exact ⟨HII1, HII2⟩
  | cons e rest2 ih =>
    obtain ⟨v, w⟩ := e
    intro nodes1 HII1 HII2 nodes2 hrs
    unfold recalc_step at hrs
    cases hcurE : getE nodes1 c with
    | error e2 =>
      rw [hcurE, except_bind_error] at hrs
      exact Except.noConfusion hrs
    | ok cur =>
      rw [hcurE, except_bind_ok] at hrs
      cases hnbE : getE nodes1 v with
      | error e2 =>
        rw [hnbE, except_bind_error] at hrs
        exact Except.noConfusion hrs
      | ok nbst =>
        rw [hnbE, except_bind_ok] at hrs
        have hcur_eq : cst = cur := by
          have h1 := getE_ok_iff.mp hcurE
          rw [HII1 c hc_unvE, hcl0] at h1
          exact Option.some.inj h1
        subst hcur_eq
        rw [fire_eq m w cst nbst] at hrs
        cases hfire : enLt (enAdd (some (primW m w)) (primA m cst)) (primA m nbst) with
        | false =>
          rw [hfire] at hrs
          simp only [Bool.false_eq_true, if_false] at hrs
          exact ih nodes1 HII1 HII2 nodes2 hrs
        | true =>
          rw [hfire] at hrs
          simp only [if_true] at hrs
          cases htd : toIntE (enAdd (some w.distance) cst.distance) with
          | error e2 =>
            rw [htd, except_bind_error] at hrs
            exact Except.noConfusion hrs
          | ok a =>
            rw [htd, except_bind_ok] at hrs
            cases htc : toIntE (enAdd (some w.cost) cst.cost) with
            | error e2 =>
              rw [htc, except_bind_error] at hrs
              exact Except.noConfusion hrs
            | ok b =>
              rw [htc, except_bind_ok] at hrs
              have hvE : v ∈ unvE := by
                by_contra hvn
                by_cases hvc : v = c
                · subst hvc
                  have h2 := getE_ok_iff.mp hnbE
                  rw [HII1 v hvn, hcl0] at h2
                  injection h2 with h2
                  rw [← h2] at hfire
                  exact enLt_enLe_absurd hfire (enLe_enAdd_left _ _)
                · have h2 := getE_ok_iff.mp hnbE
                  rw [HII1 v hvn] at h2
                  have h3 := hout v nbst h2 hvn hvc
                  exact enLt_enLe_absurd hfire
                    (enLe_trans h3 (enLe_enAdd_left _ _))
              have hvkeys1 : v ∈ keys nodes1 :=
                mem_keys_of_alookup (getE_ok_iff.mp hnbE)
              have hself : alookup (aset nodes1 v ⟨some b, some a, some c⟩) v =
                  some ⟨some b, some a, some c⟩ := alookup_aset_self _ hvkeys1
              have hpn : primA m (⟨some b, some a, some c⟩ : NodeState) =
                  enAdd (some (primW m w)) (primA m cst) := by
                cases m with
                | distance =>
                  have h4 := toIntE_ok_iff.mp htd
                  simp [primA, primW, h4]
                | cost =>
                  have h4 := toIntE_ok_iff.mp htc
                  simp [primA, primW, h4]
              refine ih (aset nodes1 v ⟨some b, some a, some c⟩) ?_ ?_ nodes2 hrs
              · intro z hz
                have hzv : z ≠ v := fun he => hz (he ▸ hvE)
                rw [alookup_aset_ne _ _ hzv]
                exact HII1 z hz
              · intro y hy yst hyl
                by_cases hyv : y = v
                · subst hyv
                  rw [hself] at hyl
                  injection hyl with hyl
                  subst hyl
                  rw [hpn]
                  exact enLe_enAdd_left _ _
                · rw [alookup_aset_ne _ _ hyv] at hyl
                  exact HII2 y hy yst hyl

/-- One successful iteration of the main loop preserves `MonoInv`,
shrinks the unvisited list, and leaves every already-finalized vertex's
state untouched — with no assumption on the edge weights beyond their
being natural numbers. -/
theorem dijkstra_step_mono {m : Metric} {g : Graph} {x : V} {rest : List V}
    {nodes : Nodes} {fuel : Nat} {r : Nodes}
    (hI : MonoInv m (x :: rest) nodes)
    (hrun : dijkstra_loop m g (fuel + 1) (x :: rest) nodes = .ok r) :
    ∃ unvE nodesN, dijkstra_loop m g fuel unvE nodesN = .ok r ∧
      MonoInv m unvE nodesN ∧
      (∀ z, z ∉ x :: rest → alookup nodesN z = alookup nodes z) ∧
      (∀ y ∈ unvE, y ∈ x :: rest) := by
  unfold dijkstra_loop at hrun
  cases hst0 : getE nodes x with
  | error e =>
    rw [hst0, except_bind_error] at hrun
    exact Except.noConfusion hrun
  | ok st0 =>
    rw [hst0, except_bind_ok] at hrun
    cases hsc : scan_min m nodes (x :: rest) x (primA m st0) with
    | error e =>
      rw [hsc, except_bind_error] at hrun
      exact Except.noConfusion hrun
    | ok sc =>
      rw [hsc, except_bind_ok] at hrun
      obtain ⟨c, mv⟩ := sc
      have hlook := scan_min_ok_lookups (x :: rest) x (primA m st0) (c, mv) hsc
      obtain ⟨c2, mv2, hsc2, hdisj, hle, hall⟩ :=
        scan_min_spec (x :: rest) x (primA m st0) hlook
      rw [hsc] at hsc2
      injection hsc2 with hsc2
      injection hsc2 with hc2 hmv2
      subst hc2
      subst hmv2
      have hcon : ∃ cst, alookup nodes c = some cst ∧ c ∈ x :: rest ∧
          mv = primA m cst := by
        rcases hdisj with ⟨hc, hmvv⟩ | ⟨cst, hcl, hcm, hmvv⟩
        · refine ⟨st0, ?_, by simp [hc], hmvv⟩
          rw [hc]
          exact getE_ok_iff.mp hst0
        · exact ⟨cst, hcl, hcm, hmvv⟩
      obtain ⟨cst, hcl, hc_mem, hmv⟩ := hcon
      subst hmv
      cases hrem : list_remove (x :: rest) c with
      | error e =>
        rw [hrem, except_bind_error] at hrun
        exact Except.noConfusion hrun
      | ok unvE =>
        rw [hrem, except_bind_ok] at hrun
        cases hrnp : recalculate_neighbour_position g c nodes m with
        | error e =>
          rw [hrnp, except_bind_error] at hrun
          exact Except.noConfusion hrun
        | ok nodesN =>
          rw [hrnp, except_bind_ok] at hrun
          unfold recalculate_neighbour_position at hrnp
          cases hrow : getE g c with
          | error e =>
            rw [hrow, except_bind_error] at hrnp
            exact Except.noConfusion hrnp
          | ok row =>
            rw [hrow, except_bind_ok] at hrnp
            have hmemiff := list_remove_mem_iff hI.unv_nodup hrem
            have hsubset : ∀ y ∈ unvE, y ∈ x :: rest :=
              fun y hy => ((hmemiff y).mp hy).1
            have hc_unvE : c ∉ unvE := fun hc => ((hmemiff c).mp hc).2 rfl
            have hout : ∀ v vst, alookup nodes v = some vst → v ∉ unvE → v ≠ c →
                enLe (primA m vst) (primA m cst) = true := by
              intro v vst hvl hvn hvc
              by_cases hvm : v ∈ x :: rest
              · exact absurd ((hmemiff v).mpr ⟨hvm, hvc⟩) hvn
              · exact hI.mono v vst hvl hvm c cst hc_mem hcl
            obtain ⟨HII1, HII2⟩ :=
              recalc_step_mono hc_unvE hcl hout row nodes
                (fun z hz => rfl)
                (fun y hy yst hyl => hall y (hsubset y hy) yst hyl)
                nodesN hrnp
            refine ⟨unvE, nodesN, hrun,
              ⟨list_remove_nodup hI.unv_nodup hrem, ?_⟩, ?_, hsubset⟩
            · intro v vst hvl hvn y yst hy hyl
              have hyb := HII2 y hy yst hyl
              by_cases hvc : v = c
              · subst hvc
                rw [HII1 v hvn, hcl] at hvl
                injection hvl with hvl
                rw [← hvl]
                exact hyb
              · have hvl0 : alookup nodes v = some vst := by
                  rw [← HII1 v hvn]
                  exact hvl
                exact enLe_trans (hout v vst hvl0 hvn hvc) hyb
            · intro z hz
              have hz2 : z ∉ unvE := fun hc => hz (hsubset z hc)
              exact HII1 z hz2

/-- Every run of `calculate_shortest_paths` starts in `MonoInv`: the
unvisited list is the graph's (duplicate-free) key list and nothing is
finalized yet. -/
theorem monoinv_init {m : Metric} {g : Graph} {s : V}
    (hnd : (keys g).Nodup) :
    MonoInv m (keys g) (aset (initNodes g) s ⟨some 0, some 0, none⟩) := by
  refine ⟨hnd, ?_⟩
  intro v vst hvl hvn y yst hy hyl
  have hvk : v ∈ keys g := by
    have h2 := mem_keys_of_alookup hvl
    rw [keys_aset, keys_initNodes] at h2
    exact h2
  exact absurd hvk hvn

/-- Once finalized, a vertex's node state is untouched by the rest of a
successful loop run, for arbitrary (non-negative) natural edge
weights. -/
theorem mono_loop_finalized {m : Metric} {g : Graph} :
    ∀ fuel unvisited nodes r z, MonoInv m unvisited nodes →
      dijkstra_loop m g fuel unvisited nodes = .ok r → z ∉ unvisited →
      alookup r z = alookup nodes z := by
  intro fuel
  induction fuel with
  | zero =>
    intro unv nodes r z hI hrun hz
    cases unv with
    | nil =>
      injection hrun with h
      rw [← h]
    | cons x rest => injection hrun
  | succ f ih =>
    intro unv nodes r z hI hrun hz
    cases unv with
    | nil =>
      injection hrun with h
      rw [← h]
    | cons x rest =>
      obtain ⟨unvE, nodesN, hrun2, hI2, hunch, hsub⟩ := dijkstra_step_mono hI hrun
      have h1 := ih unvE nodesN r z hI2 hrun2 (fun hc => hz (hsub z hc))
      rw [h1, hunch z hz]

/-! ## The claims -/

/-- Claim C1: for every graph whose edges all carry strictly positive
distance and cost weights (well-formed as a Python dict structure: nodup
keys, edge targets that are themselves keys), every start vertex present
in the graph and every metric, and every vertex reachable from the
start, the primary accumulator returned by `calculate_shortest_paths`
for that vertex equals the minimum, over all simple paths from the start
to that vertex, of the sum of the primary edge weights along the path. -/
theorem C1_shortest_path_optimal {m : Metric} {g : Graph} {s v : V}
    (hg : WFG g) (hs : s ∈ keys g) (hreach : ∃ p, IsWalk g s v p) :
    ∃ r st d, calculate_shortest_paths m g s = .ok r ∧ alookup r v = some st ∧
      primA m st = some d ∧
      IsLeast {n : Nat | ∃ p, IsWalk g s v p ∧ p.Nodup ∧
        walkW (primW m) g p = some n} d := by
  obtain ⟨r, hrun, hI⟩ := calc_run m hg hs
  obtain ⟨p0, hp0⟩ := hreach
  have hvk : v ∈ keys g := walk_target_mem hg hs hp0
  have hvr : v ∈ keys r := by rw [hI.keys_eq]; exact hvk
  obtain ⟨st, hl⟩ := alookup_isSome_of_mem_keys hvr
  obtain ⟨d, hd⟩ := final_prim_finite hI hl hp0
  refine ⟨r, st, d, hrun, hl, hd, ?_, ?_⟩
  · obtain ⟨q, _, hwalk, hnd, _, hwprim, _⟩ :=
      ub_walk hg hI.s_state (dijkinv_predCore hI) d v st hl hd
    exact ⟨q.reverse, hwalk, List.nodup_reverse.mpr hnd, hwprim⟩
  · rintro n ⟨p, hp, _, hw⟩
    have hb := hI.lb v st hl (List.not_mem_nil v) p hp
    rw [hd, hw, enLe_some_iff] at hb
    exact hb

/-- Claim C1 witness: the spec's concrete three-vertex scenario. -/
theorem C1_witness :
    ∃ r st d, calculate_shortest_paths .distance
        [("A", [("B", ⟨10, 200⟩), ("C", ⟨15, 350⟩)]),
         ("B", [("A", ⟨10, 200⟩)]),
         ("C", [("A", ⟨15, 350⟩)])] "A" = .ok r ∧
      alookup r "C" = some st ∧ primA .distance st = some d ∧
      IsLeast {n : Nat | ∃ p, IsWalk
        [("A", [("B", ⟨10, 200⟩), ("C", ⟨15, 350⟩)]),
         ("B", [("A", ⟨10, 200⟩)]),
         ("C", [("A", ⟨15, 350⟩)])] "A" "C" p ∧ p.Nodup ∧
        walkW (primW .distance)
          [("A", [("B", ⟨10, 200⟩), ("C", ⟨15, 350⟩)]),
           ("B", [("A", ⟨10, 200⟩)]),
           ("C", [("A", ⟨15, 350⟩)])] p = some n} d :=
  C1_shortest_path_optimal
    ⟨by decide, by decide, by decide, by decide, by decide⟩ (by decide)
    ⟨["A"] ++ ["C"], IsWalk.snoc IsWalk.single (by decide)⟩

/-- Claim C2: in any run, a vertex with a finite primary accumulator has
its secondary accumulator equal to the sum of the secondary edge weights
along the path obtained by following `best_neighbour` links back to the
start (relaxation updates both accumulators and the predecessor
together). -/
theorem C2_secondary_along_pred_path {m : Metric} {g : Graph} {s v : V}
    {r : Nodes} {st : NodeState} {n : Nat}
    (hg : WFG g) (hs : s ∈ keys g)
    (hrun : calculate_shortest_paths m g s = .ok r)
    (hl : alookup r v = some st) (hp : primA m st = some n) :
    ∃ q k, DChain r v q ∧ IsWalk g s v q.reverse ∧
      primA (otherM m) st = some k ∧
      walkW (primW (otherM m)) g q.reverse = some k ∧
      walkW (primW m) g q.reverse = some n := by
  obtain ⟨r2, hrun2, hI⟩ := calc_run m hg hs
  rw [hrun] at hrun2
  injection hrun2 with hr2
  subst hr2
  obtain ⟨q, hchain, hwalk, _, _, hwprim, hwsec⟩ :=
    ub_walk hg hI.s_state (dijkinv_predCore hI) n v st hl hp
  obtain ⟨k, hk⟩ := sec_finite_of_prim (hI.pairing v st hl) hp
  exact ⟨q, k, hchain, hwalk, hk, by rw [hwsec, hk], hwprim⟩

/-- Claim C2 witness: the cost-metric run on the spec's scenario graph,
queried at vertex `B`. -/
theorem C2_witness :
    ∃ q k, DChain
        [("A", ⟨some 0, some 0, none⟩),
         ("B", ⟨some 200, some 10, some "A"⟩),
         ("C", ⟨some 350, some 15, some "A"⟩)] "B" q ∧
      IsWalk
        [("A", [("B", ⟨10, 200⟩), ("C", ⟨15, 350⟩)]),
         ("B", [("A", ⟨10, 200⟩)]),
         ("C", [("A", ⟨15, 350⟩)])] "A" "B" q.reverse ∧
      primA (otherM .cost) ⟨some 200, some 10, some "A"⟩ = some k ∧
      walkW (primW (otherM .cost))
        [("A", [("B", ⟨10, 200⟩), ("C", ⟨15, 350⟩)]),
         ("B", [("A", ⟨10, 200⟩)]),
         ("C", [("A", ⟨15, 350⟩)])] q.reverse = some k ∧
      walkW (primW .cost)
        [("A", [("B", ⟨10, 200⟩), ("C", ⟨15, 350⟩)]),
         ("B", [("A", ⟨10, 200⟩)]),
         ("C", [("A", ⟨15, 350⟩)])] q.reverse = some 200 :=
  C2_secondary_along_pred_path
    ⟨by decide, by decide, by decide, by decide, by decide⟩ (by decide) rfl rfl rfl

/-- Claim C3 (counterexample): with start vertex `B` absent from the
one-vertex graph `A`, `calculate_shortest_paths` raises `KeyError` at
`nodes[starting_vertex]["cost"] = 0` instead of returning the degenerate
all-infinite mapping the claim describes. -/
theorem C3_counterexample :
    calculate_shortest_paths .distance [("A", [])] "B" =
      .error (.keyError "B") := by rfl

/-- Claim C3 (amended): for every graph and start vertex absent from its
keys, `calculate_shortest_paths` raises a `KeyError` naming the start
vertex (rather than returning a mapping of untouched infinite states). -/
theorem C3_amended_start_key_error {m : Metric} {g : Graph} {s : V}
    (hs : s ∉ keys g) :
    calculate_shortest_paths m g s = .error (.keyError s) := by
  have hlk : alookup (initNodes g) s = none := by
    rw [alookup_initNodes, alookup_eq_none_iff.mpr hs]
    rfl
  unfold calculate_shortest_paths
  rw [getE_error_iff.mpr ⟨hlk, rfl⟩]
  rfl

/-- Claim C3 witness (for the amended statement). -/
theorem C3_amended_witness :
    calculate_shortest_paths .cost [("A", [])] "Z" = .error (.keyError "Z") :=
  C3_amended_start_key_error (by decide)

/-- Claim C4: `get_best_path` fails with the `KeyError` naming the
destination exactly when the destination is not a key of the node-state
mapping; when the destination is present, that error cannot be the
outcome. -/
theorem C4_invalid_destination (nodes : Nodes) (destination : V) :
    (destination ∉ keys nodes →
      get_best_path nodes destination = .error (.keyError destination)) ∧
    (destination ∈ keys nodes →
      get_best_path nodes destination ≠ .error (.keyError destination)) := by
  constructor
  · intro h
    have hlk : alookup nodes destination = none := alookup_eq_none_iff.mpr h
    have hpl : path_loop nodes (nodes.length + 1) destination [destination] =
        .error (.keyError destination) := by
      unfold path_loop
      rw [getE_error_iff.mpr ⟨hlk, rfl⟩]
      rfl
    unfold get_best_path
    rw [hpl]
    rfl
  · intro h hcontra
    unfold get_best_path at hcontra
    cases hpl : path_loop nodes (nodes.length + 1) destination [destination] with
    | ok q =>
      rw [hpl, except_bind_ok] at hcontra
      exact Except.noConfusion hcontra
    | error e =>
      rw [hpl, except_bind_error] at hcontra
      injection hcontra with he
      subst he
      have hnone := path_loop_keyError (nodes.length + 1) destination [destination] hpl
      rw [alookup_eq_none_iff] at hnone
      exact hnone h

/-- Claim C4 witness: a present and an absent destination on a concrete
mapping. -/
theorem C4_witness :
    get_best_path [("A", ⟨some 0, some 0, none⟩)] "B" = .error (.keyError "B") ∧
    get_best_path [("A", ⟨some 0, some 0, none⟩)] "A" ≠ .error (.keyError "A") :=
  ⟨(C4_invalid_destination [("A", ⟨some 0, some 0, none⟩)] "B").1 (by decide),
   (C4_invalid_destination [("A", ⟨some 0, some 0, none⟩)] "A").2 (by decide)⟩

/-- Claim C5: round-trip — for a reachable destination, summing the
primary edge weights along the path reconstructed by `get_best_path`
from the result of `calculate_shortest_paths` equals the destination's
primary accumulator in that result. -/
theorem C5_roundtrip {m : Metric} {g : Graph} {s dest : V}
    (hg : WFG g) (hs : s ∈ keys g) (hreach : ∃ p, IsWalk g s dest p) :
    ∃ r st n q, calculate_shortest_paths m g s = .ok r ∧
      alookup r dest = some st ∧ primA m st = some n ∧
      path_loop r (r.length + 1) dest [dest] = .ok q ∧
      get_best_path r dest = .ok (join_dash q.reverse) ∧
      walkW (primW m) g q.reverse = some n := by
  obtain ⟨r, hrun, hI⟩ := calc_run m hg hs
  obtain ⟨p0, hp0⟩ := hreach
  have hvk : dest ∈ keys g := walk_target_mem hg hs hp0
  have hvr : dest ∈ keys r := by rw [hI.keys_eq]; exact hvk
  obtain ⟨st, hl⟩ := alookup_isSome_of_mem_keys hvr
  obtain ⟨n, hn⟩ := final_prim_finite hI hl hp0
  obtain ⟨q, hchain, _, hnd, hbound, hwprim, _⟩ :=
    ub_walk hg hI.s_state (dijkinv_predCore hI) n dest st hl hn
  have hsubk : ∀ x ∈ q, x ∈ keys r := by
    intro x hx
    obtain ⟨xst, hxl, _⟩ := hbound x hx
    exact mem_keys_of_alookup hxl
  have hlen : q.length ≤ r.length := by
    have h2 := nodup_length_le hnd hsubk
    simpa [keys] using h2
  have hpl := dchain_path_loop hchain [] (r.length + 1) (by omega)
  have hpl2 : path_loop r (r.length + 1) dest [dest] = .ok q := by
    simpa using hpl
  refine ⟨r, st, n, q, hrun, hl, hn, hpl2, ?_, hwprim⟩
  unfold get_best_path
  rw [hpl2]
  rfl

/-- Claim C5 witness: the distance-metric run on the spec's scenario
graph, destination `C`. -/
theorem C5_witness :
    ∃ r st n q, calculate_shortest_paths .distance
        [("A", [("B", ⟨10, 200⟩), ("C", ⟨15, 350⟩)]),
         ("B", [("A", ⟨10, 200⟩)]),
         ("C", [("A", ⟨15, 350⟩)])] "A" = .ok r ∧
      alookup r "C" = some st ∧ primA .distance st = some n ∧
      path_loop r (r.length + 1) "C" ["C"] = .ok q ∧
      get_best_path r "C" = .ok (join_dash q.reverse) ∧
      walkW (primW .distance)
        [("A", [("B", ⟨10, 200⟩), ("C", ⟨15, 350⟩)]),
         ("B", [("A", ⟨10, 200⟩)]),
         ("C", [("A", ⟨15, 350⟩)])] q.reverse = some n :=
  C5_roundtrip ⟨by decide, by decide, by decide, by decide, by decide⟩ (by decide)
    ⟨["A"] ++ ["C"], IsWalk.snoc IsWalk.single (by decide)⟩

/-- Claim C6: for every graph — edge weights are natural numbers, so in
particular merely non-negative, with zero-weight edges allowed — and
every loop state satisfying the monotonicity invariant `MonoInv`
(established at the start of every run by `monoinv_init` and preserved
by every iteration by `dijkstra_step_mono`), once a vertex has been
removed from the unvisited list (finalized), its primary-metric
accumulator is never changed by any later iteration of a successful
continuation of the `calculate_shortest_paths` loop. -/
theorem C6_finalized_monotone {m : Metric} {g : Graph} {unvisited : List V}
    {nodes r : Nodes} {z : V} {st : NodeState}
    (hI : MonoInv m unvisited nodes)
    (hz : z ∉ unvisited) (hzl : alookup nodes z = some st)
    {fuel : Nat} (hrun : dijkstra_loop m g fuel unvisited nodes = .ok r) :
    ∃ st2, alookup r z = some st2 ∧ primA m st2 = primA m st := by
  have hun := mono_loop_finalized fuel unvisited nodes r z hI hrun hz
  exact ⟨st, by rw [hun]; exact hzl, rfl⟩

/-- A concrete mid-run invariant state on a graph with a zero-weight
edge `A → B`: the first iteration finalizes `A` and the zero-weight
relaxation writes value 0 to `B`, giving exactly this state. -/
theorem monoinv_example :
    MonoInv .distance ["B"]
      [("A", ⟨some 0, some 0, none⟩), ("B", ⟨some 0, some 0, some "A"⟩)] := by
  refine ⟨by decide, ?_⟩
  intro v vst hvl hvn y yst hy hyl
  have hvm := alookup_mem hvl
  have hym := alookup_mem hyl
  rcases List.mem_cons.mp hvm with h | h
  · injection h with h1 h2
    rcases List.mem_cons.mp hym with h3 | h3
    · injection h3 with h4 h5
      rw [h4] at hy
      exact absurd hy (by decide)
    · rw [List.mem_singleton] at h3
      injection h3 with h4 h5
      rw [h2, h5]
      decide
  · rw [List.mem_singleton] at h
    injection h with h1 h2
    rw [h1] at hvn
    exact absurd (by decide : ("B" : V) ∈ ["B"]) hvn

/-- Claim C6 witness: a genuinely reachable mid-run state (one iteration
of the run on the zero-weight-edge graph `A → B`), with `A` finalized,
one vertex still unvisited, and one more loop iteration executed. -/
theorem C6_witness :
    ∃ st2, alookup
        [("A", (⟨some 0, some 0, none⟩ : NodeState)),
         ("B", ⟨some 0, some 0, some "A"⟩)] "A" = some st2 ∧
      primA .distance st2 = primA .distance ⟨some 0, some 0, none⟩ :=
  @C6_finalized_monotone .distance [("A", [("B", ⟨0, 0⟩)]), ("B", [])] ["B"]
    [("A", ⟨some 0, some 0, none⟩), ("B", ⟨some 0, some 0, some "A"⟩)]
    [("A", ⟨some 0, some 0, none⟩), ("B", ⟨some 0, some 0, some "A"⟩)]
    "A" ⟨some 0, some 0, none⟩
    monoinv_example (by decide) rfl 1 rfl

/-- Claim C7: a destination present in the result of a run whose
predecessor is none and which is not the start vertex is rendered by
`get_best_path` as the single-element path consisting of the destination
label alone, with both metric accumulators infinite, and no error is
raised. -/
theorem C7_unreachable_destination {m : Metric} {g : Graph} {s dest : V}
    {r : Nodes} {st : NodeState}
    (hg : WFG g) (hs : s ∈ keys g)
    (hrun : calculate_shortest_paths m g s = .ok r)
    (hl : alookup r dest = some st) (hbn : st.best_neighbour = none)
    (hds : dest ≠ s) :
    get_best_path r dest = .ok dest ∧ st.distance = none ∧ st.cost = none := by
  obtain ⟨r2, hrun2, hI⟩ := calc_run m hg hs
  rw [hrun] at hrun2
  injection hrun2 with hr2
  subst hr2
  have hpn : primA m st = none := by
    cases hp : primA m st with
    | none => rfl
    | some n =>
      obtain ⟨u, w, ust, hbn2, _, _, _, _, _⟩ := hI.pred dest st hl hds n hp
      rw [hbn] at hbn2
      exact Option.noConfusion hbn2
  have hdef := hI.unreached dest st hl hds hpn
  have hpl : path_loop r (r.length + 1) dest [dest] = .ok [dest] := by
    unfold path_loop
    rw [getE_ok_iff.mpr hl, except_bind_ok, hbn]
  refine ⟨?_, by rw [hdef], by rw [hdef]⟩
  unfold get_best_path
  rw [hpl]
  rfl

/-- Claim C7 witness: the two-component graph `A`, `B` with start `A`
and unreachable destination `B`. -/
theorem C7_witness :
    get_best_path [("A", ⟨some 0, some 0, none⟩), ("B", ⟨none, none, none⟩)] "B" =
        .ok "B" ∧
      (⟨none, none, none⟩ : NodeState).distance = none ∧
      (⟨none, none, none⟩ : NodeState).cost = none :=
  @C7_unreachable_destination .distance [("A", []), ("B", [])] "A" "B"
    [("A", ⟨some 0, some 0, none⟩), ("B", ⟨none, none, none⟩)] ⟨none, none, none⟩
    ⟨by decide, by decide, by decide, by decide, by decide⟩ (by decide)
    rfl rfl rfl (by decide)

/-- Claim C8: a parsed table cell whose extracted numeric readings
include a zero produces no edge at all between the two corresponding
vertices in the graph returned by `create_graph` (the neighbour entry is
deleted), rather than a zero-weight edge. -/
theorem C8_zero_cell_no_edge {rows : List Row} {g : Graph} {row : Row}
    {ep : V} {numbers : List Nat}
    (hg : create_graph rows = .ok g)
    (hnd_points : (rows.map Row.point).Nodup)
    (hrow : row ∈ rows) (hnd_cells : (keys row.cells).Nodup)
    (hcell : (ep, numbers) ∈ row.cells) (h0 : 0 ∈ numbers) :
    edgeW g row.point ep = none := by
  obtain ⟨cells, hbuild, hmem⟩ := create_graph_entries hg row hrow
  have hkeys : keys g = rows.map Row.point := create_graph_keys hg
  have hga : alookup g row.point = some cells :=
    alookup_of_mem_nodup (by rw [hkeys]; exact hnd_points) hmem
  unfold edgeW
  rw [hga]
  exact build_row_cells_zero hbuild hcell h0 hnd_cells

/-- Claim C8 witness: a row whose `B` cell reads a zero yields a graph
with no `A`-`B` edge (while the nonzero `C` cell yields one). -/
theorem C8_witness :
    edgeW [("A", [("C", ⟨2, 6⟩)])] "A" "B" = none :=
  @C8_zero_cell_no_edge [⟨"A", [("B", [0, 5]), ("C", [2, 3])]⟩]
    [("A", [("C", ⟨2, 6⟩)])] ⟨"A", [("B", [0, 5]), ("C", [2, 3])]⟩ "B" [0, 5]
    rfl (by decide) (by decide) (by decide) (by decide) (by decide)

/-- Claim C9: on a well-formed strictly-positive graph with the start
vertex among the keys, every state satisfying the loop invariant has
each node's distance accumulator finite exactly when its cost
accumulator is finite, and consequently the `int()` conversions in
`recalculate_neighbour_position` are never applied to infinity: neither
the loop from an invariant state nor a whole run can end in
`OverflowError`. -/
theorem C9_finiteness_pairing (m : Metric) {g : Graph} {s : V}
    (hg : WFG g) (hs : s ∈ keys g) :
    (∀ unvisited nodes, DijkInv m g s unvisited nodes →
      (∀ v st, alookup nodes v = some st → (st.distance = none ↔ st.cost = none)) ∧
      ∀ fuel, dijkstra_loop m g fuel unvisited nodes ≠ .error .overflowError) ∧
    calculate_shortest_paths m g s ≠ .error .overflowError := by
  constructor
  · intro unvisited nodes hI
    exact ⟨hI.pairing, fun fuel => dijkstra_loop_no_overflow hg fuel unvisited nodes hI⟩
  · obtain ⟨r, hrun, _⟩ := calc_run m hg hs
    rw [hrun]
    exact fun h => Except.noConfusion h

/-- Claim C9 witness. -/
theorem C9_witness :
    (∀ unvisited nodes, DijkInv .distance [("A", [])] "A" unvisited nodes →
      (∀ v st, alookup nodes v = some st → (st.distance = none ↔ st.cost = none)) ∧
      ∀ fuel, dijkstra_loop .distance [("A", [])] fuel unvisited nodes ≠
        .error .overflowError) ∧
    calculate_shortest_paths .distance [("A", [])] "A" ≠ .error .overflowError :=
  C9_finiteness_pairing .distance
    ⟨by decide, by decide, by decide, by decide, by decide⟩ (by decide)

/-- Claim C10: for every result of `calculate_shortest_paths` on a
well-formed strictly-positive graph, the `best_neighbour` links are
acyclic — the predecessor walk from any destination present in the
mapping is duplicate-free and reaches a vertex with no predecessor — so
the unbounded `while` loop of `get_best_path` terminates (the fueled
model succeeds) for every such destination. -/
theorem C10_pred_links_acyclic (m : Metric) {g : Graph} {s : V}
    (hg : WFG g) (hs : s ∈ keys g) :
    ∃ r, calculate_shortest_paths m g s = .ok r ∧
      ∀ dest ∈ keys r, ∃ q, path_loop r (r.length + 1) dest [dest] = .ok q ∧
        q.Nodup ∧ get_best_path r dest = .ok (join_dash q.reverse) := by
  obtain ⟨r, hrun, hI⟩ := calc_run m hg hs
  refine ⟨r, hrun, ?_⟩
  intro dest hdk
  obtain ⟨st, hl⟩ := alookup_isSome_of_mem_keys hdk
  cases hpn : primA m st with
  | some n =>
    obtain ⟨q, hchain, _, hnd, hbound, _, _⟩ :=
      ub_walk hg hI.s_state (dijkinv_predCore hI) n dest st hl hpn
    have hsubk : ∀ x ∈ q, x ∈ keys r := by
      intro x hx
      obtain ⟨xst, hxl, _⟩ := hbound x hx
      exact mem_keys_of_alookup hxl
    have hlen : q.length ≤ r.length := by
      have h2 := nodup_length_le hnd hsubk
      simpa [keys] using h2
    have hpl := dchain_path_loop hchain [] (r.length + 1) (by omega)
    have hpl2 : path_loop r (r.length + 1) dest [dest] = .ok q := by
      simpa using hpl
    refine ⟨q, hpl2, hnd, ?_⟩
    unfold get_best_path
    rw [hpl2]
    rfl
  | none =>
    have hbn : st.best_neighbour = none := by
      by_cases hds : dest = s
      · subst hds
        have hss := hI.s_state
        rw [hl] at hss
        injection hss with hss
        rw [hss]
      · have hdef := hI.unreached dest st hl hds hpn
        rw [hdef]
    have hpl : path_loop r (r.length + 1) dest [dest] = .ok [dest] := by
      unfold path_loop
      rw [getE_ok_iff.mpr hl, except_bind_ok, hbn]
    refine ⟨[dest], hpl, by simp, ?_⟩
    unfold get_best_path
    rw [hpl]
    rfl

/-- Claim C10 witness. -/
theorem C10_witness :
    ∃ r, calculate_shortest_paths .cost
        [("A", [("B", ⟨10, 200⟩), ("C", ⟨15, 350⟩)]),
         ("B", [("A", ⟨10, 200⟩)]),
         ("C", [("A", ⟨15, 350⟩)])] "A" = .ok r ∧
      ∀ dest ∈ keys r, ∃ q, path_loop r (r.length + 1) dest [dest] = .ok q ∧
        q.Nodup ∧ get_best_path r dest = .ok (join_dash q.reverse) :=
  C10_pred_links_acyclic .cost
    ⟨by decide, by decide, by decide, by decide, by decide⟩ (by decide)

/-- Sanity run: the spec's section-8 concrete scenario, reproduced
exactly by the embedded engine. -/
theorem spec_scenario_engine : calculate_shortest_paths .distance
    [("A", [("B", ⟨10, 200⟩), ("C", ⟨15, 350⟩)]),
     ("B", [("A", ⟨10, 200⟩)]),
     ("C", [("A", ⟨15, 350⟩)])] "A" =
    .ok [("A", ⟨some 0, some 0, none⟩),
         ("B", ⟨some 200, some 10, some "A"⟩),
         ("C", ⟨some 350, some 15, some "A"⟩)] := by rfl

/-- Sanity run: path rendering on the scenario result. -/
theorem spec_scenario_render : get_best_path
    [("A", ⟨some 0, some 0, none⟩),
     ("B", ⟨some 200, some 10, some "A"⟩),
     ("C", ⟨some 350, some 15, some "A"⟩)] "C" = .ok ("A" ++ "-" ++ "C") := by rfl
